import Mathlib

/-
Verification of the cell-addressing and formula-evaluation engine of
ArielSheets (src/ArielSheets.py) against its natural-language specification.

Strings are modelled as `List Char`.  The spreadsheet grid (the
`QTableWidget` backing store) is modelled as a partial map from integer
coordinates `(row, column)` to the cell's text; an absent entry models a
cell for which no `QTableWidgetItem` exists.  Python exceptions are made
explicit: operations that can raise return `Option`/pair-with-grid values,
and the `try/except` blocks of the source appear as `match` on those
results.  Python `float` values are modelled exactly, as rationals extended
with infinities and NaN (`PyFloat`); rounding of IEEE doubles and the
shortest-round-trip formatting of `str(float)` are idealised (exact
rational arithmetic, plain decimal expansion truncated at 17 fractional
digits), which no claim below depends on.
-/

/-
The four rational primitives are `@[irreducible]` in Batteries, which
blocks elaborator-level evaluation of concrete grids and formulas in the
witness and counterexample theorems below; restoring their default
reducibility for this file lets `decide` compute with exact rationals.
-/
attribute [local semireducible] Rat.add Rat.mul Rat.inv Rat.sub

/-- Convert a string literal to the `List Char` representation used
throughout this development. -/
def s2l (s : String) : List Char := s.data

/-- ASCII decimal digit for `d % 10` (embedding of Python's digit
formatting; the `% 10` is a no-op on every call site, where `d ≤ 9`). -/
def digitChar (d : Nat) : Char := Char.ofNat (48 + d % 10)

/-- Character class `[A-Z]` of the source's regular expressions. -/
def isUpperAZ (c : Char) : Bool := decide (65 ≤ c.toNat ∧ c.toNat ≤ 90)

/-- Character class `\d` (ASCII digits) of the source's regular
expressions. -/
def isDigitChar (c : Char) : Bool := decide (48 ≤ c.toNat ∧ c.toNat ≤ 57)

/-- Fuel-driven helper for `natStr` (structural recursion keeps the
definition kernel-reducible). -/
def natStrAux : Nat → Nat → List Char
  | 0, _ => []
  | fuel + 1, n =>
    if n < 10 then [digitChar n] else natStrAux fuel (n / 10) ++ [digitChar (n % 10)]

/-- Decimal rendering of a natural number, embedding Python's `str` on a
non-negative `int`. -/
def natStr (n : Nat) : List Char := natStrAux (n + 1) n

theorem natStrAux_fuel : ∀ {f1 : Nat} {n : Nat} {f2 : Nat}, n < f1 → n < f2 →
    natStrAux f1 n = natStrAux f2 n := by
  intro f1
  induction f1 with
  | zero => intro n f2 h1 _; omega
  | succ f1 ih =>
    intro n f2 h1 h2
    match f2, h2 with
    | f2 + 1, h2 =>
      simp only [natStrAux]
      split
      · rfl
      · rename_i hge
        have hlt : n / 10 < n := Nat.div_lt_self (by omega) (by omega)
        rw [@ih (n / 10) f2 (by omega) (by omega)]

theorem natStr_eq (n : Nat) :
    natStr n = if n < 10 then [digitChar n] else natStr (n / 10) ++ [digitChar (n % 10)] := by
  show natStrAux (n + 1) n = _
  simp only [natStrAux]
  split
  · rfl
  · rename_i hge
    have hlt : n / 10 < n := Nat.div_lt_self (by omega) (by omega)
    rw [natStrAux_fuel (by omega) (Nat.lt_succ_self _)]
    rfl

/-- Numeric value of a digit string, embedding Python's `int` applied to a
string of ASCII digits (as in `int(match.group(2))`). -/
def digitsToNat (ds : List Char) : Nat :=
  ds.foldl (fun a c => 10 * a + (c.toNat - 48)) 0

/-- Decimal rendering of an integer, embedding Python's `str` on an
`int`. -/
def intStr (i : Int) : List Char :=
  if i < 0 then '-' :: natStr (-i).toNat else natStr i.toNat

/-- Embedding of `get_cell_id` (src/ArielSheets.py:880-881):
`f"{chr(65 + col)}{row + 1}"`.  No range check is performed by the
source. -/
def get_cell_id (row col : Nat) : List Char :=
  Char.ofNat (65 + col) :: natStr (row + 1)

/-- The coordinate extraction of `get_cell_from_id`
(src/ArielSheets.py:883-893): `re.match(r"([A-Z])(\d+)", cell_id)` with
`col = ord(g1) - 65` and `row = int(g2) - 1`.  `re.match` anchors at the
start only, so trailing text after the digit run is ignored, and `\d+` is
greedy.  Returns `(row, column)`. -/
def parseCellId (s : List Char) : Option (Int × Int) :=
  match s with
  | [] => none
  | c :: rest =>
    if isUpperAZ c then
      let ds := rest.takeWhile isDigitChar
      if ds = [] then none
      else some ((digitsToNat ds : Int) - 1, (c.toNat : Int) - 65)
    else none

theorem toNat_ofNat_of_lt (n : Nat) (h : n < 55296) : (Char.ofNat n).toNat = n := by
  rw [Char.ofNat, dif_pos (Or.inl h)]
  rfl

theorem digitChar_toNat (d : Nat) : (digitChar d).toNat = 48 + d % 10 := by
  have : d % 10 < 10 := Nat.mod_lt _ (by omega)
  exact toNat_ofNat_of_lt _ (by omega)

theorem isDigitChar_digitChar (d : Nat) : isDigitChar (digitChar d) = true := by
  simp only [isDigitChar, digitChar_toNat, decide_eq_true_eq]
  have : d % 10 < 10 := Nat.mod_lt _ (by omega)
  omega

theorem natStr_ne_nil (n : Nat) : natStr n ≠ [] := by
  rw [natStr_eq]
  split <;> simp

theorem natStr_digits (n : Nat) : ∀ c ∈ natStr n, isDigitChar c = true := by
  induction n using Nat.strong_induction_on with
  | _ n ih =>
    rw [natStr_eq]
    split
    · intro c hc
      simp only [List.mem_singleton] at hc
      subst hc
      exact isDigitChar_digitChar n
    · intro c hc
      rcases List.mem_append.1 hc with h | h
      · exact ih (n / 10) (Nat.div_lt_self (by omega) (by omega)) c h
      · simp only [List.mem_singleton] at h
        subst h
        exact isDigitChar_digitChar (n % 10)

theorem digitsToNat_natStr (n : Nat) : digitsToNat (natStr n) = n := by
  induction n using Nat.strong_induction_on with
  | _ n ih =>
    rw [natStr_eq]
    split
    · simp only [digitsToNat, List.foldl_cons, List.foldl_nil, digitChar_toNat]
      omega
    · rename_i h
      have hrec := ih (n / 10) (Nat.div_lt_self (by omega) (by omega))
      simp only [digitsToNat, List.foldl_append, List.foldl_cons, List.foldl_nil] at *
      rw [hrec, digitChar_toNat]
      omega

theorem takeWhile_eq_self_of_all {p : Char → Bool} :
    ∀ {l : List Char}, (∀ c ∈ l, p c = true) → l.takeWhile p = l := by
  intro l
  induction l with
  | nil => intro _; rfl
  | cons c rest ih =>
    intro h
    rw [List.takeWhile_cons, h c (by simp)]
    simp [ih (fun d hd => h d (by simp [hd]))]

/-- Claim C1: for every coordinate with `row ≥ 0` and `column ∈ [0,25]`,
decoding the address produced by `get_cell_id` via the address-to-coordinate
mapping of `get_cell_from_id` yields the same coordinate. -/
theorem decode_encode_roundtrip (row col : Nat) (h : col ≤ 25) :
    parseCellId (get_cell_id row col) = some ((row : Int), (col : Int)) := by
  have htn : (Char.ofNat (65 + col)).toNat = 65 + col :=
    toNat_ofNat_of_lt _ (by omega)
  have hupper : isUpperAZ (Char.ofNat (65 + col)) = true := by
    simp only [isUpperAZ, htn, decide_eq_true_eq]
    omega
  have htake : (natStr (row + 1)).takeWhile isDigitChar = natStr (row + 1) :=
    takeWhile_eq_self_of_all (natStr_digits (row + 1))
  simp only [parseCellId, get_cell_id, hupper, if_true, htake]
  rw [if_neg (natStr_ne_nil (row + 1))]
  rw [digitsToNat_natStr, htn]
  simp only [Option.some.injEq, Prod.mk.injEq]
  constructor <;> (push_cast; omega)

/-- Witness for claim C1 at the spec's example `(row=2, column=1) ⇔ "B3"`. -/
theorem decode_encode_roundtrip_witness :
    parseCellId (get_cell_id 2 1) = some ((2 : Int), (1 : Int)) :=
  decode_encode_roundtrip 2 1 (by decide)

/-- Counterexample to claim C7: `get_cell_id` contains no range check and
no `raise` statement; at `row = 0`, `col = 26` it returns the string
`"[1"` instead of failing, and that string is not decodable as an
address. -/
theorem get_cell_id_no_range_check :
    get_cell_id 0 26 = ['[', '1'] ∧ parseCellId (get_cell_id 0 26) = none := by
  constructor <;> rfl

/-- Claim C7 (amended): `get_cell_id` never throws; for every `row ≥ 0`
and every column `≥ 26` (within the representable codepoint range) it
returns the total string `chr(65+col) ++ str(row+1)`, whose first
character is not an uppercase ASCII letter, so the resulting string fails
address decoding instead of a `RangeError` being raised. -/
theorem get_cell_id_out_of_range (row col : Nat) (h1 : 26 ≤ col)
    (h2 : 65 + col < 55296) :
    get_cell_id row col = Char.ofNat (65 + col) :: natStr (row + 1) ∧
      parseCellId (get_cell_id row col) = none := by
  refine ⟨rfl, ?_⟩
  have htn : (Char.ofNat (65 + col)).toNat = 65 + col := toNat_ofNat_of_lt _ h2
  have hupper : isUpperAZ (Char.ofNat (65 + col)) = false := by
    simp only [isUpperAZ, htn, decide_eq_false_iff_not]
    omega
  simp [parseCellId, get_cell_id, hupper]

/-- Witness for claim C7's amended theorem at `row = 0`, `col = 26`. -/
theorem get_cell_id_out_of_range_witness :
    parseCellId (get_cell_id 0 26) = none :=
  (get_cell_id_out_of_range 0 26 (by decide) (by decide)).2

/-- The grid of one sheet: the `QTableWidget` backing store, modelled as a
partial map from `(row, column)` to the cell's text.  `none` models a cell
for which no `QTableWidgetItem` exists. -/
def Grid : Type := (Int × Int) → Option (List Char)

/-- `spreadsheet.setItem(row, col, QTableWidgetItem(t))`: create or
overwrite the cell at `p` with text `t`. -/
def setCell (g : Grid) (p : Int × Int) (t : List Char) : Grid :=
  fun q => if q = p then some t else g q

/-- The grid with no items (a freshly created sheet). -/
def emptyGrid : Grid := fun _ => none

/-- Embedding of `get_cell_from_id` (src/ArielSheets.py:883-893): parse the
address; on success return the item at that coordinate, materialising an
absent cell with text `""` (`QTableWidgetItem("")`) as a side effect; on
parse failure return `None` (modelled as `none`) with the grid untouched. -/
def get_cell_from_id (g : Grid) (cellId : List Char) :
    Option ((Int × Int) × List Char) × Grid :=
  match parseCellId cellId with
  | none => (none, g)
  | some p =>
    match g p with
    | some t => (some (p, t), g)
    | none => (some (p, []), setCell g p [])

/-- Embedding of Python's `str.split(sep)` for a one-character separator,
as in `range_str.split(':')`. -/
def pySplit (sep : Char) : List Char → List (List Char)
  | [] => [[]]
  | c :: rest =>
    if c = sep then [] :: pySplit sep rest
    else
      match pySplit sep rest with
      | [] => [[c]]
      | h :: t => (c :: h) :: t

/-- Embedding of Python's `range(lo, hi + 1)` over integers: the list
`lo, lo+1, ..., hi` (empty when `hi < lo`). -/
def intRange (lo hi : Int) : List Int :=
  (List.range (hi + 1 - lo).toNat).map (fun (k : Nat) => lo + (k : Int))

/-- The row-major visiting order of the nested loops of
`get_cells_in_range` (src/ArielSheets.py:862-863). -/
def rowMajor (rlo rhi clo chi : Int) : List (Int × Int) :=
  (intRange rlo rhi).flatMap (fun r => (intRange clo chi).map (fun c => (r, c)))

/-- The loop body of `get_cells_in_range` (src/ArielSheets.py:862-868):
visit each coordinate, materialising an absent cell with text `"0"`
(`QTableWidgetItem("0")`), and collect the items in visiting order. -/
def collectCells : List (Int × Int) → Grid → List ((Int × Int) × List Char) × Grid
  | [], g => ([], g)
  | p :: ps, g =>
    match g p with
    | some t =>
      let r := collectCells ps g
      ((p, t) :: r.1, r.2)
    | none =>
      let r := collectCells ps (setCell g p ['0'])
      ((p, ['0']) :: r.1, r.2)

/-- Embedding of `get_cells_in_range` (src/ArielSheets.py:851-869).
`none` in the first component models an exception escaping the function
(the `ValueError` of unpacking `split(':')` into two names, or the
`AttributeError` of `None.row()` when an endpoint fails to parse); the
second component is the grid at that moment, since side effects performed
before the exception persist. -/
def get_cells_in_range (g : Grid) (rangeStr : List Char) :
    Option (List ((Int × Int) × List Char)) × Grid :=
  match pySplit ':' rangeStr with
  | [a, b] =>
    match get_cell_from_id g a with
    | (none, g1) => (none, g1)
    | (some (p1, _), g1) =>
      match get_cell_from_id g1 b with
      | (none, g2) => (none, g2)
      | (some (p2, _), g2) =>
        let coords := rowMajor (min p1.1 p2.1) (max p1.1 p2.1) (min p1.2 p2.2) (max p1.2 p2.2)
        let r := collectCells coords g2
        (some r.1, r.2)
  | _ => (none, g)

theorem pySplit_no_sep {sep : Char} :
    ∀ {a : List Char}, sep ∉ a → pySplit sep a = [a] := by
  intro a
  induction a with
  | nil => intro _; rfl
  | cons c rest ih =>
    intro h
    have hc : ¬ c = sep := fun he => h (by simp [he])
    have hrest : sep ∉ rest := fun hm => h (by simp [hm])
    simp only [pySplit, if_neg hc, ih hrest]

theorem pySplit_two {sep : Char} {a b : List Char} (ha : sep ∉ a) (hb : sep ∉ b) :
    pySplit sep (a ++ sep :: b) = [a, b] := by
  induction a with
  | nil => simp [pySplit, pySplit_no_sep hb]
  | cons c rest ih =>
    have hc : ¬ c = sep := fun he => ha (by simp [he])
    have hrest : sep ∉ rest := fun hm => ha (by simp [hm])
    simp only [List.cons_append, pySplit, if_neg hc, List.append_eq]
    rw [ih hrest]

theorem mem_intRange {lo hi x : Int} : x ∈ intRange lo hi ↔ lo ≤ x ∧ x ≤ hi := by
  unfold intRange
  rw [List.mem_map]
  constructor
  · rintro ⟨k, hk, rfl⟩
    rw [List.mem_range] at hk
    omega
  · intro h
    refine ⟨(x - lo).toNat, ?_, ?_⟩
    · rw [List.mem_range]
      omega
    · omega

theorem mem_rowMajor {rlo rhi clo chi : Int} {p : Int × Int} :
    p ∈ rowMajor rlo rhi clo chi ↔ rlo ≤ p.1 ∧ p.1 ≤ rhi ∧ clo ≤ p.2 ∧ p.2 ≤ chi := by
  cases p with
  | mk r c =>
    simp only [rowMajor, List.mem_flatMap, List.mem_map, Prod.mk.injEq]
    constructor
    · rintro ⟨r0, hr0, c0, hc0, rfl, rfl⟩
      exact ⟨(mem_intRange.1 hr0).1, (mem_intRange.1 hr0).2,
        (mem_intRange.1 hc0).1, (mem_intRange.1 hc0).2⟩
    · rintro ⟨h1, h2, h3, h4⟩
      exact ⟨r, mem_intRange.2 ⟨h1, h2⟩, c, mem_intRange.2 ⟨h3, h4⟩, rfl, rfl⟩

theorem rowMajor_ne_nil {rlo rhi clo chi : Int} (hr : rlo ≤ rhi) (hc : clo ≤ chi) :
    rowMajor rlo rhi clo chi ≠ [] := by
  intro he
  have : (rlo, clo) ∈ rowMajor rlo rhi clo chi := mem_rowMajor.2 (by omega)
  rw [he] at this
  exact List.not_mem_nil _ this

theorem collectCells_fst (coords : List (Int × Int)) (g : Grid) :
    (collectCells coords g).1.map Prod.fst = coords := by
  induction coords generalizing g with
  | nil => rfl
  | cons p ps ih =>
    simp only [collectCells]
    cases g p <;> simp [ih]

theorem collectCells_grid (coords : List (Int × Int)) (g : Grid) (q : Int × Int) :
    (collectCells coords g).2 q =
      if q ∈ coords ∧ g q = none then some ['0'] else g q := by
  induction coords generalizing g with
  | nil => simp [collectCells]
  | cons p ps ih =>
    simp only [collectCells]
    by_cases hq : q = p
    · subst hq
      cases hg : g q with
      | some t => simp [hg, ih, setCell]
      | none =>
        simp only [hg]
        rw [ih]
        by_cases hmem : q ∈ ps <;> simp [setCell, hmem, hg]
    · cases hg : g p with
      | some t =>
        simp only [hg]
        rw [ih]
        simp [List.mem_cons, hq]
      | none =>
        simp only [hg]
        rw [ih]
        have : setCell g p ['0'] q = g q := by simp [setCell, hq]
        simp only [this, List.mem_cons, hq, false_or]

theorem intRange_nodup (lo hi : Int) : (intRange lo hi).Nodup :=
  (List.nodup_range _).map (fun k1 k2 h => by omega)

theorem rowMajor_nodup (rlo rhi clo chi : Int) : (rowMajor rlo rhi clo chi).Nodup := by
  refine List.nodup_flatMap.2 ⟨?_, ?_⟩
  · intro r _
    exact (intRange_nodup clo chi).map (fun c1 c2 h => by
      simpa using congrArg Prod.snd h)
  · refine (intRange_nodup rlo rhi).imp ?_
    intro r1 r2 hne
    simp only [Function.onFun]
    rw [List.disjoint_left]
    rintro ⟨pr, pc⟩ h1 h2
    rcases List.mem_map.1 h1 with ⟨c1, _, hc1⟩
    rcases List.mem_map.1 h2 with ⟨c2, _, hc2⟩
    rw [Prod.mk.injEq] at hc1 hc2
    exact hne (hc1.1.trans hc2.1.symm)

theorem collectCells_cells {coords : List (Int × Int)} (hnd : coords.Nodup) (g : Grid) :
    (collectCells coords g).1 = coords.map (fun p => (p, (g p).getD ['0'])) := by
  induction coords generalizing g with
  | nil => rfl
  | cons p ps ih =>
    rcases List.nodup_cons.1 hnd with ⟨hp, hps⟩
    simp only [collectCells, List.map_cons]
    cases hg : g p with
    | some t =>
      simp only [hg, Option.getD_some]
      rw [ih hps]
    | none =>
      simp only [hg, Option.getD_none]
      rw [ih hps]
      refine congrArg _ (List.map_congr_left ?_)
      intro q hq
      have : ¬ q = p := fun he => hp (he ▸ hq)
      simp [setCell, this]

/-- The normalized visiting order of a range with endpoints `pa`, `pb`:
row-major ascending over `(min..max) × (min..max)`. -/
def rangeCoords (pa pb : Int × Int) : List (Int × Int) :=
  rowMajor (min pa.1 pb.1) (max pa.1 pb.1) (min pa.2 pb.2) (max pa.2 pb.2)

/-- The grid state after `get_cells_in_range` succeeds on the range from
`pa` to `pb`: inside the normalized bounds, present cells keep their
text, the absent endpoint cells named in the range token hold `""`
(materialised by `get_cell_from_id`), and every other absent cell holds
`"0"`; outside the bounds nothing changes. -/
def rangeMaterialise (g : Grid) (pa pb : Int × Int) : Grid :=
  fun p =>
    if p ∈ rangeCoords pa pb then
      some ((g p).getD (if p = pa ∨ p = pb then [] else ['0']))
    else g p

theorem get_cell_from_id_eq (g : Grid) (cid : List Char) (p : Int × Int)
    (hp : parseCellId cid = some p) :
    get_cell_from_id g cid = (some (p, (g p).getD []), setCell g p ((g p).getD [])) := by
  cases hgp : g p with
  | some t =>
    simp only [get_cell_from_id, hp, hgp, Option.getD_some]
    rw [Prod.mk.injEq]
    refine ⟨rfl, ?_⟩
    funext q
    by_cases hq : q = p
    · rw [hq]
      simp [setCell, hgp]
    · simp [setCell, hq]
  | none =>
    simp only [get_cell_from_id, hp, hgp, Option.getD_none]

theorem mem_rangeCoords {pa pb q : Int × Int} :
    q ∈ rangeCoords pa pb ↔
      min pa.1 pb.1 ≤ q.1 ∧ q.1 ≤ max pa.1 pb.1 ∧ min pa.2 pb.2 ≤ q.2 ∧ q.2 ≤ max pa.2 pb.2 :=
  mem_rowMajor

theorem pa_mem_rangeCoords (pa pb : Int × Int) : pa ∈ rangeCoords pa pb :=
  mem_rangeCoords.2 (by omega)

theorem pb_mem_rangeCoords (pa pb : Int × Int) : pb ∈ rangeCoords pa pb :=
  mem_rangeCoords.2 (by omega)

theorem rangeCoords_nodup (pa pb : Int × Int) : (rangeCoords pa pb).Nodup :=
  rowMajor_nodup _ _ _ _

theorem get_cells_in_range_spec (g : Grid) (a b : List Char) (pa pb : Int × Int)
    (hna : ':' ∉ a) (hnb : ':' ∉ b)
    (hpa : parseCellId a = some pa) (hpb : parseCellId b = some pb) :
    get_cells_in_range g (a ++ ':' :: b) =
      (some ((rangeCoords pa pb).map
          (fun p => (p, (rangeMaterialise g pa pb p).getD ['0']))),
        rangeMaterialise g pa pb) := by
  have hrng := rangeCoords_nodup pa pb
  set g1 : Grid := setCell g pa ((g pa).getD []) with hg1def
  set g2 : Grid := setCell g1 pb ((g1 pb).getD []) with hg2def
  have hE : ∀ q, (if q ∈ rangeCoords pa pb ∧ g2 q = none then some ['0'] else g2 q) =
      rangeMaterialise g pa pb q := by
    intro q
    by_cases hqb : q = pb
    · rw [hqb]
      have hg2q : g2 pb = some ((g1 pb).getD []) := by
        rw [hg2def]
        simp [setCell]
      have hg1q : (g1 pb).getD [] = (g pb).getD [] := by
        rw [hg1def]
        by_cases hab : pb = pa
        · rw [hab]
          simp [setCell]
        · simp [setCell, hab]
      rw [if_neg (fun hcon => by rw [hg2q] at hcon; exact Option.noConfusion hcon.2)]
      rw [hg2q, hg1q]
      unfold rangeMaterialise
      rw [if_pos (pb_mem_rangeCoords pa pb)]
      simp
    · by_cases hqa : q = pa
      · rw [hqa]
        have hab : ¬ pa = pb := fun h => hqb (by rw [hqa, h])
        have hg2q : g2 pa = some ((g pa).getD []) := by
          rw [hg2def, hg1def]
          simp [setCell, hab]
        rw [if_neg (fun hcon => by rw [hg2q] at hcon; exact Option.noConfusion hcon.2)]
        rw [hg2q]
        unfold rangeMaterialise
        rw [if_pos (pa_mem_rangeCoords pa pb)]
        simp
      · have hg2q : g2 q = g q := by
          rw [hg2def, hg1def]
          simp [setCell, hqa, hqb]
        rw [hg2q]
        unfold rangeMaterialise
        by_cases hin : q ∈ rangeCoords pa pb
        · rw [if_pos hin]
          cases hgq : g q with
          | some t =>
            rw [if_neg (fun hcon => Option.noConfusion hcon.2)]
            simp
          | none =>
            rw [if_pos ⟨hin, rfl⟩]
            simp [hqa, hqb]
        · rw [if_neg hin, if_neg (fun hcon => hin hcon.1)]
  unfold get_cells_in_range
  rw [pySplit_two hna hnb]
  dsimp only
  rw [get_cell_from_id_eq g a pa hpa]
  dsimp only
  rw [← hg1def, get_cell_from_id_eq g1 b pb hpb]
  dsimp only
  rw [← hg2def, Prod.mk.injEq]
  have hcoords : rowMajor (min pa.1 pb.1) (max pa.1 pb.1) (min pa.2 pb.2) (max pa.2 pb.2) =
      rangeCoords pa pb := rfl
  constructor
  · rw [hcoords, collectCells_cells hrng g2]
    refine congrArg some (List.map_congr_left ?_)
    intro p hp
    cases hg2p : g2 p with
    | none =>
      have h2 := hE p
      rw [hg2p] at h2
      rw [if_pos ⟨hp, rfl⟩] at h2
      rw [← h2]
      rfl
    | some t =>
      have h2 := hE p
      rw [hg2p] at h2
      rw [if_neg (fun hcon => Option.noConfusion hcon.2)] at h2
      rw [← h2]
  · funext q
    rw [hcoords, collectCells_grid]
    exact hE q

/-- Counterexample to claim C6: on an empty grid, iterating the range
`"A1:B2"` materialises the endpoint cell `A1` (coordinate `(0,0)`) with
text `""` — planted by `get_cell_from_id` while resolving the range token
— and not with text `"0"` as the claim states for every absent cell of the
range. -/
theorem range_endpoint_not_zero :
    (get_cells_in_range emptyGrid (s2l ("A1:B2"))).2 (0, 0) = some [] ∧
      some ([] : List Char) ≠ some ['0'] := by
  constructor
  · rfl
  · decide

/-- Claim C6 (amended): for every well-formed range token `a:b`, range
iteration succeeds, visits exactly the coordinates of the normalized
bounds in row-major ascending order and leaves the grid in the state
`rangeMaterialise`: no cell of the range is absent afterwards; an absent
cell that is not one of the two endpoint cells is materialised with text
`"0"`; an absent endpoint cell is materialised with text `""`; present
cells and cells outside the bounds are untouched. -/
theorem range_iteration_spec (g : Grid) (a b : List Char) (pa pb : Int × Int)
    (hna : ':' ∉ a) (hnb : ':' ∉ b)
    (hpa : parseCellId a = some pa) (hpb : parseCellId b = some pb) :
    ∃ cells : List ((Int × Int) × List Char),
      get_cells_in_range g (a ++ ':' :: b) = (some cells, rangeMaterialise g pa pb) ∧
      cells.map Prod.fst =
        rowMajor (min pa.1 pb.1) (max pa.1 pb.1) (min pa.2 pb.2) (max pa.2 pb.2) ∧
      (∀ p ∈ rangeCoords pa pb, (rangeMaterialise g pa pb p).isSome = true) ∧
      (∀ p ∈ rangeCoords pa pb, g p = none → ¬ p = pa → ¬ p = pb →
        rangeMaterialise g pa pb p = some ['0']) ∧
      (∀ p, g p = none → (p = pa ∨ p = pb) → rangeMaterialise g pa pb p = some []) ∧
      (∀ p ∈ rangeCoords pa pb, ∀ t, g p = some t → rangeMaterialise g pa pb p = some t) ∧
      (∀ p, p ∉ rangeCoords pa pb → rangeMaterialise g pa pb p = g p) := by
  refine ⟨_, get_cells_in_range_spec g a b pa pb hna hnb hpa hpb, ?_, ?_, ?_, ?_, ?_, ?_⟩
  · rw [List.map_map]
    have : (Prod.fst ∘ fun p => (p, (rangeMaterialise g pa pb p).getD ['0'])) = id := rfl
    rw [this, List.map_id]
    rfl
  · intro p hp
    unfold rangeMaterialise
    rw [if_pos hp]
    rfl
  · intro p hp hgp h1 h2
    unfold rangeMaterialise
    rw [if_pos hp, hgp]
    simp [h1, h2]
  · intro p hgp hor
    unfold rangeMaterialise
    have hp : p ∈ rangeCoords pa pb := by
      rcases hor with h | h
      · rw [h]; exact pa_mem_rangeCoords pa pb
      · rw [h]; exact pb_mem_rangeCoords pa pb
    rw [if_pos hp, hgp]
    simp [hor]
  · intro p hp t hgp
    unfold rangeMaterialise
    rw [if_pos hp, hgp]
    rfl
  · intro p hp
    unfold rangeMaterialise
    rw [if_neg hp]

/-- Witness for claim C6's amended theorem: the range `"A1:B2"` on the
empty grid; the corner `A1` is filled with `""`, the non-endpoint cell
`A2` (coordinate `(1,0)`) with `"0"`. -/
theorem range_iteration_spec_witness :
    (get_cells_in_range emptyGrid (s2l ("A1:B2"))).2 (1, 0) = some ['0'] := by
  obtain ⟨cells, hmain, -, -, -, -, -⟩ :=
    range_iteration_spec emptyGrid (s2l ("A1")) (s2l ("B2")) (0, 0) (1, 1)
      (by decide) (by decide) (by decide) (by decide)
  have hstr : s2l ("A1:B2") = s2l ("A1") ++ ':' :: s2l ("B2") := rfl
  rw [hstr, hmain]
  rfl

/-- Model of a Python `float` value: an exact rational, or one of the
special values `inf`, `-inf`, `nan`.  Rounding of IEEE doubles is
idealised as exact rational arithmetic. -/
inductive PyFloat where
  | finite (q : ℚ)
  | inf
  | ninf
  | nan
deriving DecidableEq

/-- Whitespace stripped by Python's `float(str)` conversion (ASCII). -/
def isSpaceChar (c : Char) : Bool :=
  decide (c = ' ' ∨ c = '\t' ∨ c = '\n' ∨ c = '\r' ∨ c.toNat = 11 ∨ c.toNat = 12)

def stripWs (l : List Char) : List Char :=
  ((l.dropWhile isSpaceChar).reverse.dropWhile isSpaceChar).reverse

/-- Exponent part of the `float()` grammar: `[+-]?\d+` with nothing
trailing. -/
def parseExpPart (mant : ℚ) (r : List Char) : Option ℚ :=
  let esign : Bool :=
    match r with
    | '-' :: _ => true
    | _ => false
  let r2 : List Char :=
    match r with
    | '+' :: x => x
    | '-' :: x => x
    | _ => r
  let eds := r2.takeWhile isDigitChar
  if eds = [] then none
  else if ¬ r2.drop eds.length = [] then none
  else some (if esign then mant / (10 : ℚ) ^ digitsToNat eds
             else mant * (10 : ℚ) ^ digitsToNat eds)

/-- Magnitude part of the `float()` grammar: `\d*(\.\d*)?([eE][+-]?\d+)?`
with at least one digit in the mantissa and nothing trailing.  (The
underscore digit separators accepted by CPython are omitted.) -/
def parseFiniteMag (t : List Char) : Option ℚ :=
  let ds := t.takeWhile isDigitChar
  let r1 := t.drop ds.length
  let fs : List Char :=
    match r1 with
    | '.' :: r => r.takeWhile isDigitChar
    | _ => []
  let r2 : List Char :=
    match r1 with
    | '.' :: r => r.drop (r.takeWhile isDigitChar).length
    | _ => r1
  if ds = [] ∧ fs = [] then none
  else
    let mant : ℚ := (digitsToNat ds : ℚ) + (digitsToNat fs : ℚ) / (10 : ℚ) ^ fs.length
    match r2 with
    | [] => some mant
    | 'e' :: r3 => parseExpPart mant r3
    | 'E' :: r3 => parseExpPart mant r3
    | _ => none

/-- Embedding of Python's `float(str)` conversion: optional surrounding
whitespace, optional sign, then either a (case-insensitive) `inf`,
`infinity` or `nan`, or a finite decimal with optional fraction and
exponent.  Returns `none` where Python raises `ValueError`.  Overflow of
huge exponents to `inf` is not modelled (values stay exact). -/
def pyFloatVal (l : List Char) : Option PyFloat :=
  let t := stripWs l
  let sign : Bool :=
    match t with
    | '-' :: _ => true
    | _ => false
  let t1 : List Char :=
    match t with
    | '+' :: r => r
    | '-' :: r => r
    | _ => t
  let low := t1.map Char.toLower
  if low = s2l ("inf") ∨ low = s2l ("infinity") then
    some (if sign then PyFloat.ninf else PyFloat.inf)
  else if low = s2l ("nan") then some PyFloat.nan
  else
    match parseFiniteMag t1 with
    | none => none
    | some q => some (PyFloat.finite (if sign then -q else q))

/-- Fractional digits of the decimal expansion of `q ∈ [0,1)`, stopping
at a zero remainder or after `fuel` digits. -/
def qFracDigits : Nat → ℚ → List Char
  | 0, _ => []
  | fuel + 1, q =>
    if q = 0 then []
    else digitChar (Rat.floor (q * 10)).toNat ::
      qFracDigits fuel (q * 10 - Rat.floor (q * 10))

/-- Decimal rendering of a non-negative rational, embedding `str` on a
non-negative Python float (idealised: plain decimal expansion, truncated
at 17 fractional digits, no exponent form). -/
def qMagStr (q : ℚ) : List Char :=
  if q - Rat.floor q = 0 then natStr (Rat.floor q).toNat ++ s2l (".0")
  else natStr (Rat.floor q).toNat ++ '.' :: qFracDigits 17 (q - Rat.floor q)

/-- Embedding of Python's `str` on a `float` value. -/
def pyFloatStr : PyFloat → List Char
  | .inf => s2l ("inf")
  | .ninf => s2l ("-inf")
  | .nan => s2l ("nan")
  | .finite q => if q < 0 then '-' :: qMagStr (-q) else qMagStr q

/-- Python `+` on floats. -/
def pfAdd : PyFloat → PyFloat → PyFloat
  | .nan, _ => .nan
  | _, .nan => .nan
  | .inf, .ninf => .nan
  | .ninf, .inf => .nan
  | .inf, _ => .inf
  | _, .inf => .inf
  | .ninf, _ => .ninf
  | _, .ninf => .ninf
  | .finite a, .finite b => .finite (a + b)

/-- Python `sum(values)` (left fold starting from `0`). -/
def pySum (l : List PyFloat) : PyFloat := l.foldl pfAdd (.finite 0)

/-- Python `<` on floats (any comparison with `nan` is false). -/
def pfLt : PyFloat → PyFloat → Bool
  | .nan, _ => false
  | _, .nan => false
  | .ninf, .ninf => false
  | .ninf, _ => true
  | _, .ninf => false
  | .inf, _ => false
  | .finite _, .inf => true
  | .finite a, .finite b => decide (a < b)

/-- Python `<=` on floats (any comparison with `nan` is false). -/
def pfLe : PyFloat → PyFloat → Bool
  | .nan, _ => false
  | _, .nan => false
  | .ninf, _ => true
  | _, .ninf => false
  | _, .inf => true
  | .inf, _ => false
  | .finite a, .finite b => decide (a ≤ b)

/-- Python `min(v :: vs)`: keep the first element, replace when a later
one compares strictly smaller. -/
def pfMinList (v : PyFloat) (vs : List PyFloat) : PyFloat :=
  vs.foldl (fun m w => if pfLt w m then w else m) v

/-- Python `max(v :: vs)`. -/
def pfMaxList (v : PyFloat) (vs : List PyFloat) : PyFloat :=
  vs.foldl (fun m w => if pfLt m w then w else m) v

/-- Python `v / n` for a positive integer count (used by `AVERAGE`). -/
def pfDivNat (v : PyFloat) (n : Nat) : PyFloat :=
  match v with
  | .finite q => .finite (q / (n : ℚ))
  | x => x

/-- Python `v != 0` on a float (true for `inf`, `-inf` and `nan`). -/
def pfNe0 : PyFloat → Bool
  | .finite q => decide (¬ q = 0)
  | _ => true

/-- A per-cell validation rule as stored by `add_data_validation`
(src/ArielSheets.py:560-572): the dialog's type string and the optional
min/max texts. -/
structure PyValidation where
  vtype : List Char
  vmin : Option (List Char)
  vmax : Option (List Char)

/-- Lookup in the `cell_validations` dictionary, keyed by cell id. -/
def lookupV : List (List Char × PyValidation) → List Char → Option PyValidation
  | [], _ => none
  | (k, v) :: rest, key => if k = key then some v else lookupV rest key

/-- Embedding of `validate_cell_input` (src/ArielSheets.py:574-614) for a
cell at `(row, col)` holding proposed text `value`.  Each numeric parse is
Python's `float()`; a `ValueError` is the `none` case of `pyFloatVal`. -/
def validate_cell_input (validations : List (List Char × PyValidation))
    (row col : Nat) (value : List Char) : Bool :=
  match lookupV validations (get_cell_id row col) with
  | none => true
  | some v =>
    if v.vtype = s2l ("Number Only") then
      (pyFloatVal value).isSome
    else if v.vtype = s2l ("Text Only") then
      !(pyFloatVal value).isSome
    else if v.vtype = s2l ("Custom Range") then
      match pyFloatVal value with
      | none => false
      | some nv =>
        let minv : Option PyFloat :=
          match v.vmin with
          | none => some PyFloat.ninf
          | some s => if s = [] then some PyFloat.ninf else pyFloatVal s
        let maxv : Option PyFloat :=
          match v.vmax with
          | none => some PyFloat.inf
          | some s => if s = [] then some PyFloat.inf else pyFloatVal s
        match minv, maxv with
        | some lo, some hi => pfLe lo nv && pfLe nv hi
        | _, _ => false
    else true

/-- The spec's acceptance predicate for `NumberOnly`, following its words:
the text parses as a finite decimal number (infinities and NaN are not
finite). -/
def parsesAsFiniteDecimal (value : List Char) : Bool :=
  match pyFloatVal value with
  | some (.finite _) => true
  | _ => false

/-- Counterexample to claim C8: the text `"inf"` parses as an infinite
float, so it is not a finite decimal number, yet `validate_cell_input`
accepts it for a cell carrying a `Number Only` rule, because the source
only checks that `float(value)` does not raise. -/
theorem numberOnly_accepts_inf :
    validate_cell_input [(s2l ("A1"), ⟨s2l ("Number Only"), none, none⟩)] 0 0
        (s2l ("inf")) = true ∧
      parsesAsFiniteDecimal (s2l ("inf")) = false := by
  constructor
  · rfl
  · rfl

/-- Claim C8 (amended): for every cell carrying a `Number Only` rule and
every proposed text, the validation check accepts the text if and only if
it parses under Python's `float()` grammar — which also accepts the
non-finite spellings `inf`, `infinity` and `nan` (with optional sign and
surrounding whitespace). -/
theorem numberOnly_accepts_iff_float_parses
    (validations : List (List Char × PyValidation)) (row col : Nat)
    (value : List Char) (v : PyValidation)
    (hv : lookupV validations (get_cell_id row col) = some v)
    (ht : v.vtype = s2l ("Number Only")) :
    validate_cell_input validations row col value = (pyFloatVal value).isSome := by
  unfold validate_cell_input
  rw [hv]
  simp only [ht, if_true, if_pos rfl]

/-- Witness for claim C8's amended theorem: a `Number Only` cell and the
text `"2.5"`, which parses. -/
theorem numberOnly_accepts_iff_float_parses_witness :
    validate_cell_input [(s2l ("A1"), ⟨s2l ("Number Only"), none, none⟩)] 0 0
        (s2l ("2.5")) = true := by
  rw [numberOnly_accepts_iff_float_parses
    [(s2l ("A1"), ⟨s2l ("Number Only"), none, none⟩)] 0 0 (s2l ("2.5"))
    ⟨s2l ("Number Only"), none, none⟩ (by rfl) (by rfl)]
  rfl

/-- Fuel-driven scanner for `re.findall(r'[A-Z]\d+', formula)`
(src/ArielSheets.py:897-898): at each position, an uppercase letter
followed by at least one digit starts a match consisting of the letter
and the maximal digit run; scanning resumes after the match. -/
def findallAux : Nat → List Char → List (List Char)
  | 0, _ => []
  | _ + 1, [] => []
  | fuel + 1, c :: rest =>
    if isUpperAZ c ∧ ¬ rest.takeWhile isDigitChar = [] then
      (c :: rest.takeWhile isDigitChar) :: findallAux fuel (rest.dropWhile isDigitChar)
    else findallAux fuel rest

/-- `re.findall(r'[A-Z]\d+', l)`. -/
def findall_refs (l : List Char) : List (List Char) := findallAux (l.length + 1) l

/-- Fuel-driven embedding of Python's `str.replace(old, new)` for a
non-empty `old`: replace non-overlapping occurrences left to right. -/
def pyReplaceAux (old new : List Char) : Nat → List Char → List Char
  | 0, s => s
  | _ + 1, [] => []
  | fuel + 1, c :: rest =>
    if ¬ old = [] ∧ old.isPrefixOf (c :: rest) then
      new ++ pyReplaceAux old new fuel ((c :: rest).drop old.length)
    else c :: pyReplaceAux old new fuel rest

/-- Python's `s.replace(old, new)`. -/
def pyReplace (old new s : List Char) : List Char := pyReplaceAux old new (s.length + 1) s

/-- The loop body of `replace_cell_references` (src/ArielSheets.py:900-907):
resolve each found reference through `get_cell_from_id` (materialising an
absent cell with `""`), coerce its text with `float` — a `ValueError`
short-circuits to the error string — and globally replace the reference
text by `str(float(...))`. -/
def rcrLoop : List (List Char) → List Char → Grid → List Char × Grid
  | [], f, g => (f, g)
  | ref :: rest, f, g =>
    let r := get_cell_from_id g ref
    let cellValue : List Char :=
      match r.1 with
      | some (_, t) => t
      | none => ['0']
    match pyFloatVal cellValue with
    | none => (s2l ("ERROR: Invalid cell reference"), r.2)
    | some v => rcrLoop rest (pyReplace ref (pyFloatStr v) f) r.2

/-- Embedding of `replace_cell_references` (src/ArielSheets.py:895-909). -/
def replace_cell_references (g : Grid) (f : List Char) : List Char × Grid :=
  rcrLoop (findall_refs f) f g

/-- The character allow-list of `evaluate_formula`
(src/ArielSheets.py:815): `set('0123456789+-*/() .')`. -/
def allowedChar (c : Char) : Bool := decide (c ∈ s2l ("0123456789+-*/() ."))

def allowedChars (l : List Char) : Bool := l.all allowedChar

/-- Tokens of the sanitised arithmetic sub-language passed to `eval`. -/
inductive Tok where
  | num (q : ℚ)
  | plus
  | minus
  | star
  | slash
  | lp
  | rp
deriving DecidableEq

/-- Tokeniser for the sanitised arithmetic string (digits, `.`, the four
operators, parentheses, spaces). -/
def tokenizeAux : Nat → List Char → Option (List Tok)
  | 0, _ => none
  | _ + 1, [] => some []
  | fuel + 1, c :: rest =>
    if c = ' ' then tokenizeAux fuel rest
    else if c = '+' then (tokenizeAux fuel rest).map (Tok.plus :: ·)
    else if c = '-' then (tokenizeAux fuel rest).map (Tok.minus :: ·)
    else if c = '*' then (tokenizeAux fuel rest).map (Tok.star :: ·)
    else if c = '/' then (tokenizeAux fuel rest).map (Tok.slash :: ·)
    else if c = '(' then (tokenizeAux fuel rest).map (Tok.lp :: ·)
    else if c = ')' then (tokenizeAux fuel rest).map (Tok.rp :: ·)
    else if isDigitChar c ∨ c = '.' then
      let ds := (c :: rest).takeWhile isDigitChar
      let r1 := (c :: rest).drop ds.length
      let fs : List Char :=
        match r1 with
        | '.' :: r => r.takeWhile isDigitChar
        | _ => []
      let r2 : List Char :=
        match r1 with
        | '.' :: r => r.drop (r.takeWhile isDigitChar).length
        | _ => r1
      if ds = [] ∧ fs = [] then none
      else
        let v : ℚ := (digitsToNat ds : ℚ) + (digitsToNat fs : ℚ) / (10 : ℚ) ^ fs.length
        (tokenizeAux fuel r2).map (Tok.num v :: ·)
    else none

def tokenize (l : List Char) : Option (List Tok) := tokenizeAux (l.length + 1) l

mutual

/-- `expr := term (('+' | '-') term)*`, left associative. -/
def parseExprT : Nat → List Tok → Except (List Char) (ℚ × List Tok)
  | 0, _ => .error (s2l ("maximum recursion depth exceeded"))
  | fuel + 1, ts =>
    match parseTermT fuel ts with
    | .error e => .error e
    | .ok (v, rest) => parseExprTail fuel v rest

def parseExprTail : Nat → ℚ → List Tok → Except (List Char) (ℚ × List Tok)
  | 0, _, _ => .error (s2l ("maximum recursion depth exceeded"))
  | fuel + 1, acc, ts =>
    match ts with
    | Tok.plus :: rest =>
      match parseTermT fuel rest with
      | .error e => .error e
      | .ok (v, rest2) => parseExprTail fuel (acc + v) rest2
    | Tok.minus :: rest =>
      match parseTermT fuel rest with
      | .error e => .error e
      | .ok (v, rest2) => parseExprTail fuel (acc - v) rest2
    | _ => .ok (acc, ts)

/-- `term := factor (('*' | '/') factor)*`, left associative; division by
zero is Python's `ZeroDivisionError`. -/
def parseTermT : Nat → List Tok → Except (List Char) (ℚ × List Tok)
  | 0, _ => .error (s2l ("maximum recursion depth exceeded"))
  | fuel + 1, ts =>
    match parseFactorT fuel ts with
    | .error e => .error e
    | .ok (v, rest) => parseTermTail fuel v rest

def parseTermTail : Nat → ℚ → List Tok → Except (List Char) (ℚ × List Tok)
  | 0, _, _ => .error (s2l ("maximum recursion depth exceeded"))
  | fuel + 1, acc, ts =>
    match ts with
    | Tok.star :: rest =>
      match parseFactorT fuel rest with
      | .error e => .error e
      | .ok (v, rest2) => parseTermTail fuel (acc * v) rest2
    | Tok.slash :: rest =>
      match parseFactorT fuel rest with
      | .error e => .error e
      | .ok (v, rest2) =>
        if v = 0 then .error (s2l ("division by zero"))
        else parseTermTail fuel (acc / v) rest2
    | _ => .ok (acc, ts)

/-- `factor := ('+' | '-')* (number | '(' expr ')')`. -/
def parseFactorT : Nat → List Tok → Except (List Char) (ℚ × List Tok)
  | 0, _ => .error (s2l ("maximum recursion depth exceeded"))
  | fuel + 1, ts =>
    match ts with
    | Tok.minus :: rest =>
      match parseFactorT fuel rest with
      | .error e => .error e
      | .ok (v, rest2) => .ok (-v, rest2)
    | Tok.plus :: rest => parseFactorT fuel rest
    | Tok.num q :: rest => .ok (q, rest)
    | Tok.lp :: rest =>
      match parseExprT fuel rest with
      | .error e => .error e
      | .ok (v, Tok.rp :: rest2) => .ok (v, rest2)
      | .ok (_, _) => .error (s2l ("invalid syntax"))
    | _ => .error (s2l ("invalid syntax"))

end

/-- Embedding of the sanitised `eval(formula)` call
(src/ArielSheets.py:818) as a precedence-respecting arithmetic evaluator
(the spec's §9 strategy for the restricted-character evaluation); every
Python evaluation fault is an `Except.error` with a cause string. -/
def pyEval (l : List Char) : Except (List Char) ℚ :=
  match tokenize l with
  | none => .error (s2l ("invalid syntax"))
  | some ts =>
    match parseExprT (2 * ts.length + 2) ts with
    | .error e => .error e
    | .ok (v, []) => .ok v
    | .ok (_, _ :: _) => .error (s2l ("invalid syntax"))

/-- `str(result)` for the value of `eval`: a Python `int` renders without
a decimal point, a `float` with one. -/
def pyNumStr (q : ℚ) : List Char :=
  if q.den = 1 then intStr q.num else pyFloatStr (.finite q)

/-- Content before the last `')'` of `body`, or `none` when `body` has no
`')'`: the group `(.*)` of `re.match(r'([A-Z]+)\((.*)\)', formula)` with
its greedy backtracking. -/
def beforeLastRParen (body : List Char) : Option (List Char) :=
  match body.reverse.dropWhile (fun c => ¬ c = ')') with
  | [] => none
  | _ :: restRev => some restRev.reverse

/-- The match of `re.match(r'([A-Z]+)\((.*)\)', formula)`: the maximal
uppercase prefix must be non-empty and followed by `'('`; the range text
is everything up to the last `')'`. -/
def funcRangeStr (f : List Char) : Option (List Char) :=
  if f.takeWhile isUpperAZ = [] then none
  else
    match f.drop (f.takeWhile isUpperAZ).length with
    | '(' :: body => beforeLastRParen body
    | _ => none

/-- `f"ERROR: Invalid {func_name} range"`. -/
def errRangeMsg (funcName : List Char) : List Char :=
  s2l ("ERROR: Invalid ") ++ funcName ++ ' ' :: s2l ("range")

/-- `float(cell.text() or 0)` (src/ArielSheets.py:831): empty text is the
falsy case and coerces to `0`. -/
def coerceCell (t : List Char) : Option PyFloat :=
  if t = [] then some (PyFloat.finite 0) else pyFloatVal t

/-- The list comprehension `[float(cell.text() or 0) for cell in cells]`;
`none` models the first `ValueError` raised. -/
def coerceValues : List ((Int × Int) × List Char) → Option (List PyFloat)
  | [] => some []
  | c :: cs =>
    match coerceCell c.2 with
    | none => none
    | some v => (coerceValues cs).map (v :: ·)

/-- Embedding of `handle_special_function` (src/ArielSheets.py:823-849).
The first component is the returned string, `none` modelling the implicit
`return None` when the function name matches none of the five aggregates
(unreachable through `evaluate_formula`); the `try/except` appears as the
`match` on the `Option` results of range resolution and coercion. -/
def handle_special_function (g : Grid) (f : List Char) : Option (List Char) × Grid :=
  match funcRangeStr f with
  | none => (some (s2l ("ERROR: Invalid function format")), g)
  | some rangeStr =>
    let funcName := f.takeWhile isUpperAZ
    match get_cells_in_range g rangeStr with
    | (none, g1) => (some (errRangeMsg funcName), g1)
    | (some cells, g1) =>
      match coerceValues cells with
      | none => (some (errRangeMsg funcName), g1)
      | some values =>
        match values with
        | [] => (some ['0'], g1)
        | v :: vs =>
          if funcName = s2l ("SUM") then (some (pyFloatStr (pySum (v :: vs))), g1)
          else if funcName = s2l ("AVERAGE") then
            (some (pyFloatStr (pfDivNat (pySum (v :: vs)) (v :: vs).length)), g1)
          else if funcName = s2l ("MIN") then (some (pyFloatStr (pfMinList v vs)), g1)
          else if funcName = s2l ("MAX") then (some (pyFloatStr (pfMaxList v vs)), g1)
          else if funcName = s2l ("COUNT") then
            (some (natStr ((v :: vs).filter pfNe0).length), g1)
          else (none, g1)

/-- `formula.startswith(('SUM(', 'AVERAGE(', 'MIN(', 'MAX(', 'COUNT('))`. -/
def startsWithSpecial (f : List Char) : Bool :=
  (s2l ("SUM(")).isPrefixOf f || (s2l ("AVERAGE(")).isPrefixOf f ||
    (s2l ("MIN(")).isPrefixOf f || (s2l ("MAX(")).isPrefixOf f ||
    (s2l ("COUNT(")).isPrefixOf f

/-- Embedding of `evaluate_formula` (src/ArielSheets.py:797-821).  The
first component is the returned value (`none` only for the unreachable
`None` fall-through of `handle_special_function`); all caught exceptions
appear as `ERROR`-prefixed strings. -/
def evaluate_formula (g : Grid) (formula : List Char) : Option (List Char) × Grid :=
  match formula with
  | '=' :: f =>
    if startsWithSpecial f then handle_special_function g f
    else
      let r := replace_cell_references g f
      if (s2l ("ERROR")).isPrefixOf r.1 then (some r.1, r.2)
      else if ¬ allowedChars r.1 = true then
        (some (s2l ("ERROR: Invalid characters in formula")), r.2)
      else
        match pyEval r.1 with
        | .ok v => (some (pyNumStr v), r.2)
        | .error e => (some (s2l ("ERROR: Invalid formula (") ++ e ++ [')']), r.2)
  | _ => (some formula, g)

theorem setCell_self (g : Grid) (c : Int × Int) (t : List Char) (h : g c = some t) :
    setCell g c t = g := by
  funext q
  by_cases hq : q = c
  · rw [hq]
    simp [setCell, h]
  · simp [setCell, hq]

theorem pyFloatVal_nil : pyFloatVal [] = none := rfl

/-- Counterexample to claim C3: on an empty grid, evaluating the general
arithmetic formula `"=A1+1"` does not use `0` for the absent cell `A1`;
it materialises `A1` with text `""` (not `"0"`) and returns
`"ERROR: Invalid cell reference"` even though no referenced cell has
existing text failing float coercion. -/
theorem arithmetic_absent_ref_errors :
    (evaluate_formula emptyGrid (s2l ("=A1+1"))).1 =
        some (s2l ("ERROR: Invalid cell reference")) ∧
      (evaluate_formula emptyGrid (s2l ("=A1+1"))).2 (0, 0) = some [] ∧
      ¬ (evaluate_formula emptyGrid (s2l ("=A1+1"))).2 (0, 0) = some ['0'] := by
  refine ⟨rfl, rfl, by decide⟩

/-- Claim C3 (amended): in a general arithmetic formula, if the
references found before some reference `r` all resolve to present cells
whose text coerces to a float, and `r` names an absent cell, then
`replace_cell_references` materialises that cell with text `""` (whose
float coercion then fails) and short-circuits to the literal string
`"ERROR: Invalid cell reference"`; so the error is reached both for
absent referenced cells and for cells whose existing text fails
coercion. -/
theorem replace_refs_absent_cell (g : Grid) (f : List Char)
    (pre post : List (List Char)) (r : List Char) (c : Int × Int)
    (hsplit : findall_refs f = pre ++ r :: post)
    (hpre : ∀ r2 ∈ pre, ∃ c2 t v, parseCellId r2 = some c2 ∧ g c2 = some t ∧
      pyFloatVal t = some v)
    (hr : parseCellId r = some c) (habs : g c = none) :
    (replace_cell_references g f).1 = s2l ("ERROR: Invalid cell reference") ∧
      (replace_cell_references g f).2 c = some [] := by
  unfold replace_cell_references
  rw [hsplit]
  clear hsplit
  induction pre generalizing f with
  | nil =>
    rw [List.nil_append]
    unfold rcrLoop
    rw [get_cell_from_id_eq g r c hr, habs]
    simp only [Option.getD_none, pyFloatVal_nil]
    exact ⟨by simp, by simp [setCell]⟩
  | cons a pre ih =>
    obtain ⟨c2, t, v, hca, hgt, hv⟩ := hpre a (by simp)
    rw [List.cons_append]
    unfold rcrLoop
    rw [get_cell_from_id_eq g a c2 hca, hgt]
    simp only [Option.getD_some, hv]
    rw [setCell_self g c2 t hgt]
    exact ih _ (fun r2 hr2 => hpre r2 (by simp [hr2]))

/-- Witness for claim C3's amended theorem at the counterexample's input:
formula text `"A1+1"` on the empty grid, whose single reference `A1` is
absent. -/
theorem replace_refs_absent_cell_witness :
    (replace_cell_references emptyGrid (s2l ("A1+1"))).1 =
        s2l ("ERROR: Invalid cell reference") ∧
      (replace_cell_references emptyGrid (s2l ("A1+1"))).2 (0, 0) = some [] :=
  replace_refs_absent_cell emptyGrid (s2l ("A1+1")) [] [] (s2l ("A1")) (0, 0)
    (by rfl) (by intro r2 hr2; cases hr2) (by rfl) rfl

theorem isPrefixOf_append (p t : List Char) : p.isPrefixOf (p ++ t) = true := by
  rw [List.isPrefixOf_iff_prefix]
  exact ⟨t, rfl⟩

theorem takeWhile_upper_of_prefix (name rest : List Char)
    (hall : ∀ c ∈ name, isUpperAZ c = true) :
    (name ++ '(' :: rest).takeWhile isUpperAZ = name := by
  induction name with
  | nil => rfl
  | cons c cs ih =>
    rw [List.cons_append, List.takeWhile_cons, hall c (by simp)]
    simp only [if_true]
    rw [ih (fun d hd => hall d (by simp [hd]))]

/-- `r` begins with `"ERROR"`. -/
def errorMarked (r : List Char) : Bool := (s2l ("ERROR")).isPrefixOf r

theorem errorMarked_errRangeMsg (funcName : List Char) :
    errorMarked (errRangeMsg funcName) = true := by
  have h : errRangeMsg funcName =
      s2l ("ERROR") ++ (s2l (": Invalid ") ++ funcName ++ ' ' :: s2l ("range")) := by
    unfold errRangeMsg
    simp [s2l]
  rw [errorMarked, h, isPrefixOf_append]

/-- Every outcome of `handle_special_function` reached through
`evaluate_formula`'s aggregate dispatch is a returned string that is
either `ERROR`-marked or the rendering of a number. -/
theorem hsf_classified (g : Grid) (f : List Char) (h : startsWithSpecial f = true) :
    ∃ r g2, handle_special_function g f = (some r, g2) ∧
      (errorMarked r = true ∨ (∃ n : Nat, r = natStr n) ∨ ∃ v : PyFloat, r = pyFloatStr v) := by
  have hfn : f.takeWhile isUpperAZ = s2l ("SUM") ∨ f.takeWhile isUpperAZ = s2l ("AVERAGE") ∨
      f.takeWhile isUpperAZ = s2l ("MIN") ∨ f.takeWhile isUpperAZ = s2l ("MAX") ∨
      f.takeWhile isUpperAZ = s2l ("COUNT") := by
    unfold startsWithSpecial at h
    simp only [Bool.or_eq_true, List.isPrefixOf_iff_prefix] at h
    rcases h with ((((⟨t, ht⟩ | ⟨t, ht⟩) | ⟨t, ht⟩) | ⟨t, ht⟩) | ⟨t, ht⟩)
    · refine Or.inl (by rw [← ht]; exact takeWhile_upper_of_prefix (s2l ("SUM")) t (by decide))
    · refine Or.inr (Or.inl (by
        rw [← ht]; exact takeWhile_upper_of_prefix (s2l ("AVERAGE")) t (by decide)))
    · refine Or.inr (Or.inr (Or.inl (by
        rw [← ht]; exact takeWhile_upper_of_prefix (s2l ("MIN")) t (by decide))))
    · refine Or.inr (Or.inr (Or.inr (Or.inl (by
        rw [← ht]; exact takeWhile_upper_of_prefix (s2l ("MAX")) t (by decide)))))
    · refine Or.inr (Or.inr (Or.inr (Or.inr (by
        rw [← ht]; exact takeWhile_upper_of_prefix (s2l ("COUNT")) t (by decide)))))
  unfold handle_special_function
  cases hfr : funcRangeStr f with
  | none =>
    dsimp only
    exact ⟨_, _, rfl, Or.inl (by decide)⟩
  | some rangeStr =>
    dsimp only
    cases hgc : get_cells_in_range g rangeStr with
    | mk cellsO g1 =>
      cases cellsO with
      | none =>
        dsimp only
        exact ⟨_, _, rfl, Or.inl (errorMarked_errRangeMsg _)⟩
      | some cells =>
        dsimp only
        cases hcv : coerceValues cells with
        | none =>
          dsimp only
          exact ⟨_, _, rfl, Or.inl (errorMarked_errRangeMsg _)⟩
        | some values =>
          dsimp only
          cases values with
          | nil => exact ⟨_, _, rfl, Or.inr (Or.inl ⟨0, rfl⟩)⟩
          | cons v vs =>
            dsimp only
            rcases hfn with hfn | hfn | hfn | hfn | hfn
            · rw [hfn, if_pos rfl]
              exact ⟨_, _, rfl, Or.inr (Or.inr ⟨_, rfl⟩)⟩
            · rw [hfn, if_neg (by decide), if_pos rfl]
              exact ⟨_, _, rfl, Or.inr (Or.inr ⟨_, rfl⟩)⟩
            · rw [hfn, if_neg (by decide), if_neg (by decide), if_pos rfl]
              exact ⟨_, _, rfl, Or.inr (Or.inr ⟨_, rfl⟩)⟩
            · rw [hfn, if_neg (by decide), if_neg (by decide), if_neg (by decide), if_pos rfl]
              exact ⟨_, _, rfl, Or.inr (Or.inr ⟨_, rfl⟩)⟩
            · rw [hfn, if_neg (by decide), if_neg (by decide), if_neg (by decide),
                if_neg (by decide), if_pos rfl]
              exact ⟨_, _, rfl, Or.inr (Or.inl ⟨_, rfl⟩)⟩

/-- Claim C2: for every input string and every grid state,
`evaluate_formula` returns a string — never raising an exception and
never falling through to Python's implicit `None` — and that string is
the unchanged literal, an `ERROR`-prefixed error marker, or the decimal
rendering of a number. -/
theorem evaluator_total_and_errors_marked (g : Grid) (formula : List Char) :
    ∃ r g2, evaluate_formula g formula = (some r, g2) ∧
      (r = formula ∨ errorMarked r = true ∨ (∃ n : Nat, r = natStr n) ∨
        (∃ v : PyFloat, r = pyFloatStr v) ∨ ∃ q : ℚ, r = pyNumStr q) := by
  unfold evaluate_formula
  split
  · rename_i f
    by_cases hs : startsWithSpecial f = true
    · rw [if_pos hs]
      obtain ⟨r, g2, heq, hc⟩ := hsf_classified g f hs
      refine ⟨r, g2, heq, ?_⟩
      rcases hc with hc | hc | hc
      · exact Or.inr (Or.inl hc)
      · exact Or.inr (Or.inr (Or.inl hc))
      · exact Or.inr (Or.inr (Or.inr (Or.inl hc)))
    · rw [if_neg hs]
      by_cases he : (s2l ("ERROR")).isPrefixOf (replace_cell_references g f).1 = true
      · rw [if_pos he]
        exact ⟨_, _, rfl, Or.inr (Or.inl he)⟩
      · rw [if_neg he]
        by_cases ha : allowedChars (replace_cell_references g f).1 = true
        · rw [if_neg (by rw [ha]; simp)]
          cases hev : pyEval (replace_cell_references g f).1 with
          | ok v => exact ⟨_, _, rfl, Or.inr (Or.inr (Or.inr (Or.inr ⟨v, rfl⟩)))⟩
          | error e =>
            refine ⟨_, _, rfl, Or.inr (Or.inl ?_)⟩
            have hsh : s2l ("ERROR: Invalid formula (") ++ e ++ [')'] =
                s2l ("ERROR") ++ (s2l (": Invalid formula (") ++ e ++ [')']) := by
              simp [s2l]
            rw [errorMarked, hsh, isPrefixOf_append]
        · rw [if_pos (by simpa using ha)]
          exact ⟨_, _, rfl, Or.inr (Or.inl (by decide))⟩
  · exact ⟨formula, g, rfl, Or.inl rfl⟩

theorem coerceValues_length {cells : List ((Int × Int) × List Char)}
    {values : List PyFloat} (h : coerceValues cells = some values) :
    values.length = cells.length := by
  induction cells generalizing values with
  | nil =>
    simp only [coerceValues, Option.some.injEq] at h
    rw [← h]
    rfl
  | cons c cs ih =>
    simp only [coerceValues] at h
    cases hc : coerceCell c.2 with
    | none => rw [hc] at h; cases h
    | some v =>
      rw [hc] at h
      cases hcs : coerceValues cs with
      | none => rw [hcs] at h; cases h
      | some vs =>
        rw [hcs] at h
        have h2 : v :: vs = values := by simpa using h
        rw [← h2]
        simp [ih hcs]

theorem rangeCoords_ne_nil (pa pb : Int × Int) : rangeCoords pa pb ≠ [] := by
  intro he
  have := pa_mem_rangeCoords pa pb
  rw [he] at this
  exact List.not_mem_nil _ this

/-- Claim C10: for every syntactically well-formed range token `a:b`,
range resolution returns a non-empty list of cells — the normalized
bounds always span at least one coordinate — so the aggregate values list
(when every cell coerces) is never empty: the empty-range branch
returning `"0"` is unreachable and `AVERAGE` never divides by zero. -/
theorem range_cells_nonempty (g : Grid) (a b : List Char) (pa pb : Int × Int)
    (hna : ':' ∉ a) (hnb : ':' ∉ b)
    (hpa : parseCellId a = some pa) (hpb : parseCellId b = some pb) :
    ∃ cells, (get_cells_in_range g (a ++ ':' :: b)).1 = some cells ∧ ¬ cells = [] ∧
      ∀ values, coerceValues cells = some values → ¬ values = [] := by
  rw [get_cells_in_range_spec g a b pa pb hna hnb hpa hpb]
  refine ⟨_, rfl, ?_, ?_⟩
  · intro he
    exact rangeCoords_ne_nil pa pb (List.map_eq_nil_iff.1 he)
  · intro values hv he
    have hlen := coerceValues_length hv
    rw [he, List.length_map] at hlen
    have := rangeCoords_ne_nil pa pb
    rw [← List.length_pos_iff_ne_nil] at this
    simp at hlen
    omega

/-- Witness for claim C10 at the range `"A1:A1"` on the empty grid. -/
theorem range_cells_nonempty_witness :
    ∃ cells, (get_cells_in_range emptyGrid (s2l ("A1:A1"))).1 = some cells ∧
      ¬ cells = [] ∧ ∀ values, coerceValues cells = some values → ¬ values = [] :=
  range_cells_nonempty emptyGrid (s2l ("A1")) (s2l ("A1")) (0, 0) (0, 0)
    (by decide) (by decide) (by rfl) (by rfl)

theorem evaluate_formula_eq (g : Grid) (f : List Char) :
    evaluate_formula g ('=' :: f) =
      if startsWithSpecial f then handle_special_function g f
      else
        let r := replace_cell_references g f
        if (s2l ("ERROR")).isPrefixOf r.1 then (some r.1, r.2)
        else if ¬ allowedChars r.1 = true then
          (some (s2l ("ERROR: Invalid characters in formula")), r.2)
        else
          match pyEval r.1 with
          | .ok v => (some (pyNumStr v), r.2)
          | .error e => (some (s2l ("ERROR: Invalid formula (") ++ e ++ [')']), r.2) := rfl

theorem beforeLastRParen_append (x : List Char) :
    beforeLastRParen (x ++ [')']) = some x := by
  unfold beforeLastRParen
  have h1 : (x ++ [')']).reverse = ')' :: x.reverse := by simp
  rw [h1, List.dropWhile_cons]
  simp only [decide_not, decide_eq_true_eq]
  rw [if_neg (by simp)]
  simp

theorem funcRangeStr_count (a b : List Char) :
    funcRangeStr (s2l ("COUNT(") ++ (a ++ ':' :: (b ++ [')']))) = some (a ++ ':' :: b) := by
  unfold funcRangeStr
  have htw : List.takeWhile isUpperAZ (s2l ("COUNT(") ++ (a ++ ':' :: (b ++ [')']))) =
      s2l ("COUNT") :=
    takeWhile_upper_of_prefix (s2l ("COUNT")) (a ++ ':' :: (b ++ [')'])) (by decide)
  rw [htw, if_neg (by decide)]
  have hdrop : (s2l ("COUNT(") ++ (a ++ ':' :: (b ++ [')']))).drop (s2l ("COUNT")).length =
      '(' :: (a ++ ':' :: (b ++ [')'])) := rfl
  rw [hdrop]
  show beforeLastRParen (a ++ ':' :: (b ++ [')'])) = some (a ++ ':' :: b)
  have hshape : a ++ ':' :: (b ++ [')']) = (a ++ ':' :: b) ++ [')'] := by simp
  rw [hshape]
  exact beforeLastRParen_append _

theorem coerceValues_map {l : List (Int × Int)} {tf : (Int × Int) → List Char}
    {vf : (Int × Int) → PyFloat}
    (h : ∀ p ∈ l, coerceCell (tf p) = some (vf p)) :
    coerceValues (l.map (fun p => (p, tf p))) = some (l.map vf) := by
  induction l with
  | nil => rfl
  | cons p ps ih =>
    simp only [List.map_cons, coerceValues]
    rw [h p (by simp)]
    rw [ih (fun q hq => h q (by simp [hq]))]
    rfl

/-- The numeric value `float(cell.text() or 0)` sees for the cell at `p`
of the original grid: absent cells and empty text give `0`. -/
def valueAt (g : Grid) (p : Int × Int) : PyFloat :=
  match g p with
  | none => .finite 0
  | some t => if t = [] then .finite 0 else (pyFloatVal t).getD (.finite 0)

/-- The number of non-zero collected values over the normalized range, as
the spec describes `COUNT`. -/
def countNonzeroInRange (g : Grid) (pa pb : Int × Int) : Nat :=
  (((rangeCoords pa pb).map (valueAt g)).filter pfNe0).length

theorem coerce_materialised (g : Grid) (pa pb : Int × Int)
    (hco : ∀ p ∈ rangeCoords pa pb, ∀ t, g p = some t → ¬ t = [] →
      ∃ v, pyFloatVal t = some v) :
    ∀ p ∈ rangeCoords pa pb,
      coerceCell ((rangeMaterialise g pa pb p).getD ['0']) = some (valueAt g p) := by
  intro p hp
  unfold rangeMaterialise valueAt
  rw [if_pos hp]
  cases hgp : g p with
  | none =>
    simp only [Option.getD_none, Option.getD_some]
    by_cases he : p = pa ∨ p = pb
    · rw [if_pos he]
      rfl
    · rw [if_neg he]
      decide
  | some t =>
    simp only [Option.getD_some]
    by_cases ht : t = []
    · rw [ht]
      rfl
    · obtain ⟨v, hv⟩ := hco p hp t hgp ht
      simp [coerceCell, ht, hv]

/-- Claim C5: for every well-formed range whose cells all coerce to
floats, evaluating `=COUNT(range)` returns the decimal string of the
number of collected values that are non-zero — not the number of
non-empty cells. -/
theorem count_counts_nonzero (g : Grid) (a b : List Char) (pa pb : Int × Int)
    (hna : ':' ∉ a) (hnb : ':' ∉ b)
    (hpa : parseCellId a = some pa) (hpb : parseCellId b = some pb)
    (hco : ∀ p ∈ rangeCoords pa pb, ∀ t, g p = some t → ¬ t = [] →
      ∃ v, pyFloatVal t = some v) :
    (evaluate_formula g ('=' :: (s2l ("COUNT(") ++ (a ++ ':' :: (b ++ [')']))))).1 =
      some (natStr (countNonzeroInRange g pa pb)) := by
  rw [evaluate_formula_eq]
  have hstart : startsWithSpecial (s2l ("COUNT(") ++ (a ++ ':' :: (b ++ [')']))) = true := by
    unfold startsWithSpecial
    rw [isPrefixOf_append (s2l ("COUNT("))]
    simp
  rw [if_pos hstart]
  unfold handle_special_function
  rw [funcRangeStr_count a b]
  dsimp only
  have htw : List.takeWhile isUpperAZ (s2l ("COUNT(") ++ (a ++ ':' :: (b ++ [')']))) =
      s2l ("COUNT") :=
    takeWhile_upper_of_prefix (s2l ("COUNT")) (a ++ ':' :: (b ++ [')'])) (by decide)
  rw [htw]
  rw [get_cells_in_range_spec g a b pa pb hna hnb hpa hpb]
  dsimp only
  rw [coerceValues_map (coerce_materialised g pa pb hco)]
  dsimp only
  unfold countNonzeroInRange
  cases hrc : rangeCoords pa pb with
  | nil => exact absurd hrc (rangeCoords_ne_nil pa pb)
  | cons p0 ps =>
    simp only [List.map_cons]
    rw [if_neg (by decide), if_neg (by decide), if_neg (by decide), if_neg (by decide)]
    simp

/-- Witness for claim C5 at the spec's example: values `0, 5, 0` in
`A1:A3`, where `=COUNT(A1:A3)` returns `"1"`. -/
theorem count_counts_nonzero_witness :
    (evaluate_formula
        (setCell (setCell (setCell emptyGrid (0, 0) ['0']) (1, 0) ['5']) (2, 0) ['0'])
        ('=' :: (s2l ("COUNT(") ++ (s2l ("A1") ++ ':' :: (s2l ("A3") ++ [')']))))).1 =
      some (natStr (countNonzeroInRange
        (setCell (setCell (setCell emptyGrid (0, 0) ['0']) (1, 0) ['5']) (2, 0) ['0'])
        (0, 0) (2, 0))) ∧
    natStr (countNonzeroInRange
        (setCell (setCell (setCell emptyGrid (0, 0) ['0']) (1, 0) ['5']) (2, 0) ['0'])
        (0, 0) (2, 0)) = ['1'] := by
  constructor
  · refine count_counts_nonzero
      (setCell (setCell (setCell emptyGrid (0, 0) ['0']) (1, 0) ['5']) (2, 0) ['0'])
      (s2l ("A1")) (s2l ("A3")) (0, 0) (2, 0) (by decide) (by decide) (by rfl) (by rfl) ?_
    intro p hp t hgt htne
    have hrc : rangeCoords ((0 : Int), (0 : Int)) ((2 : Int), (0 : Int)) =
        [(0, 0), (1, 0), (2, 0)] := by decide
    rw [hrc] at hp
    rcases List.mem_cons.1 hp with rfl | hp
    · have ht : t = ['0'] := by
        have h0 : some t = some ['0'] := hgt.symm.trans rfl
        simpa using h0
      exact ⟨PyFloat.finite 0, by rw [ht]; decide⟩
    · rcases List.mem_cons.1 hp with rfl | hp
      · have ht : t = ['5'] := by
          have h0 : some t = some ['5'] := hgt.symm.trans rfl
          simpa using h0
        exact ⟨PyFloat.finite 5, by rw [ht]; decide⟩
      · rcases List.mem_cons.1 hp with rfl | hp
        · have ht : t = ['0'] := by
            have h0 : some t = some ['0'] := hgt.symm.trans rfl
            simpa using h0
          exact ⟨PyFloat.finite 0, by rw [ht]; decide⟩
        · cases hp
  · decide

/-- A table region as stored by `create_table` (src/ArielSheets.py:481-486):
`{'start_row': …, 'start_col': …, 'rows': …, 'cols': …}`. -/
structure PyTable where
  start_row : Int
  start_col : Int
  rows : Nat
  cols : Nat
deriving DecidableEq

/-- The region lookup at the head of `sort_table`
(src/ArielSheets.py:495-500): the first table (in insertion order) whose
bounds contain the current cell. -/
def findTable : List PyTable → Int → Int → Option PyTable
  | [], _, _ => none
  | t :: ts, r, c =>
    if t.start_row ≤ r ∧ r < t.start_row + t.rows ∧
        t.start_col ≤ c ∧ c < t.start_col + t.cols then some t
    else findTable ts r c

/-- `item.text() if item else ""` (src/ArielSheets.py:515). -/
def textOrEmpty (g : Grid) (p : Int × Int) : List Char := (g p).getD []

/-- The data rows of a table region, read as text tuples, excluding the
header row (src/ArielSheets.py:509-516): row `r` of the data block lives
at grid row `start_row + r + 1`. -/
def readRows (g : Grid) (t : PyTable) : List (List (List Char)) :=
  (List.range (t.rows - 1)).map (fun (r : Nat) =>
    (List.range t.cols).map (fun (c : Nat) =>
      textOrEmpty g (t.start_row + (r : Int) + 1, t.start_col + (c : Int))))

/-- Python string `<=` (code-point lexicographic). -/
def pyStrLe : List Char → List Char → Bool
  | [], _ => true
  | _ :: _, [] => false
  | a :: as, b :: bs =>
    if a.toNat < b.toNat then true
    else if b.toNat < a.toNat then false
    else pyStrLe as bs

/-- The comparison `data.sort(key=lambda x: x[col_to_sort])` performs
between two rows: string comparison of the pivot entries. -/
def rowLe (pivot : Nat) (x y : List (List Char)) : Prop :=
  pyStrLe (x.getD pivot []) (y.getD pivot []) = true

instance rowLe_decidable (pivot : Nat) : DecidableRel (rowLe pivot) :=
  fun x y => inferInstanceAs (Decidable (pyStrLe (x.getD pivot []) (y.getD pivot []) = true))

/-- The inner write-back loop of `sort_table` (src/ArielSheets.py:523-526):
write the cells of one row left to right starting at column `c`. -/
def writeRowCells : Grid → Int → Int → List (List Char) → Grid
  | g, _, _, [] => g
  | g, r, c, v :: vs => writeRowCells (setCell g (r, c) v) r (c + 1) vs

/-- The outer write-back loop of `sort_table` (src/ArielSheets.py:522-526):
write the sorted rows top to bottom starting at row `r`. -/
def writeRows : Grid → Int → Int → List (List (List Char)) → Grid
  | g, _, _, [] => g
  | g, r, sc, row :: rest => writeRows (writeRowCells g r sc row) (r + 1) sc rest

/-- Embedding of `sort_table` (src/ArielSheets.py:488-526) for the sheet
grid `g`, registered tables `tables` and current cell `(cr, cc)`.  When no
table contains the current cell the grid is unchanged (the source shows a
warning dialog).  Python's `list.sort` is a stable sort by the pivot
string; a stable sort by a total preorder is the unique stable sorted
permutation, embedded here as Mathlib's (stable) insertion sort. -/
def sort_table (g : Grid) (tables : List PyTable) (cr cc : Int) : Grid :=
  match findTable tables cr cc with
  | none => g
  | some t =>
    let pivot := (cc - t.start_col).toNat
    let data := readRows g t
    let sorted := List.insertionSort (rowLe pivot) data
    writeRows g (t.start_row + 1) t.start_col sorted

theorem findTable_some : ∀ {tables : List PyTable} {r c : Int} {t : PyTable},
    findTable tables r c = some t →
    t.start_row ≤ r ∧ r < t.start_row + t.rows ∧
      t.start_col ≤ c ∧ c < t.start_col + t.cols := by
  intro tables
  induction tables with
  | nil => intro r c t h; cases h
  | cons t0 ts ih =>
    intro r c t h
    unfold findTable at h
    split at h
    · cases h
      assumption
    · exact ih h

theorem pyStrLe_total : ∀ x y : List Char, pyStrLe x y = true ∨ pyStrLe y x = true := by
  intro x
  induction x with
  | nil => intro y; exact Or.inl rfl
  | cons a as ih =>
    intro y
    cases y with
    | nil => exact Or.inr rfl
    | cons b bs =>
      simp only [pyStrLe]
      rcases Nat.lt_trichotomy a.toNat b.toNat with h | h | h
      · left
        rw [if_pos h]
      · rw [if_neg (by omega), if_neg (by omega), if_neg (by omega), if_neg (by omega)]
        exact ih bs
      · right
        rw [if_pos h]

theorem pyStrLe_trans : ∀ x y z : List Char, pyStrLe x y = true → pyStrLe y z = true →
    pyStrLe x z = true := by
  intro x
  induction x with
  | nil => intro y z _ _; rfl
  | cons a as ih =>
    intro y z hxy hyz
    cases y with
    | nil => cases hxy
    | cons b bs =>
      cases z with
      | nil => cases hyz
      | cons c cs =>
        simp only [pyStrLe] at hxy hyz ⊢
        split_ifs at hxy hyz ⊢ <;>
          first
          | rfl
          | exact ih bs cs hxy hyz
          | exact Bool.noConfusion hxy
          | exact Bool.noConfusion hyz
          | (exfalso; omega)

theorem writeRowCells_untouched :
    ∀ (cells : List (List Char)) (g : Grid) (r c : Int) (q : Int × Int),
    (q.1 ≠ r ∨ q.2 < c ∨ c + (cells.length : Int) ≤ q.2) →
    writeRowCells g r c cells q = g q := by
  intro cells
  induction cells with
  | nil => intro g r c q _; rfl
  | cons v vs ih =>
    intro g r c q h
    show writeRowCells (setCell g (r, c) v) r (c + 1) vs q = g q
    rw [ih (setCell g (r, c) v) r (c + 1) q (by
      rcases h with h | h | h
      · exact Or.inl h
      · exact Or.inr (Or.inl (by omega))
      · refine Or.inr (Or.inr ?_)
        simp only [List.length_cons] at h
        push_cast at h ⊢
        omega)]
    have hne : q ≠ (r, c) := by
      rcases h with h | h | h
      · exact fun he => h (by rw [he])
      · exact fun he => by rw [he] at h; omega
      · refine fun he => ?_
        rw [he] at h
        simp only [List.length_cons] at h
        push_cast at h
        omega
    simp [setCell, hne]

theorem writeRowCells_read :
    ∀ (cells : List (List Char)) (g : Grid) (r c : Int) (j : Nat), j < cells.length →
    writeRowCells g r c cells (r, c + (j : Int)) = some (cells.getD j []) := by
  intro cells
  induction cells with
  | nil => intro g r c j hj; cases hj
  | cons v vs ih =>
    intro g r c j hj
    show writeRowCells (setCell g (r, c) v) r (c + 1) vs (r, c + (j : Int)) = _
    cases j with
    | zero =>
      rw [writeRowCells_untouched vs _ r (c + 1) _ (Or.inr (Or.inl (by simp)))]
      simp [setCell]
    | succ j =>
      have hco : c + ((j + 1 : Nat) : Int) = (c + 1) + (j : Int) := by push_cast; omega
      rw [hco]
      rw [ih (setCell g (r, c) v) r (c + 1) j (by simpa using hj)]
      rfl

theorem writeRows_untouched_row :
    ∀ (rows : List (List (List Char))) (g : Grid) (r sc : Int) (q : Int × Int),
    (q.1 < r ∨ r + (rows.length : Int) ≤ q.1) →
    writeRows g r sc rows q = g q := by
  intro rows
  induction rows with
  | nil => intro g r sc q _; rfl
  | cons row rest ih =>
    intro g r sc q h
    show writeRows (writeRowCells g r sc row) (r + 1) sc rest q = g q
    rw [ih _ (r + 1) sc q (by
      rcases h with h | h
      · exact Or.inl (by omega)
      · simp only [List.length_cons] at h
        push_cast at h ⊢
        exact Or.inr (by omega))]
    refine writeRowCells_untouched row g r sc q (Or.inl ?_)
    rcases h with h | h
    · omega
    · simp only [List.length_cons] at h
      push_cast at h
      omega

theorem writeRows_untouched_col :
    ∀ (rows : List (List (List Char))) (g : Grid) (r sc : Int) (cols : Nat)
    (q : Int × Int),
    (∀ row ∈ rows, row.length ≤ cols) →
    (q.2 < sc ∨ sc + (cols : Int) ≤ q.2) →
    writeRows g r sc rows q = g q := by
  intro rows
  induction rows with
  | nil => intro g r sc cols q _ _; rfl
  | cons row rest ih =>
    intro g r sc cols q hlen h
    show writeRows (writeRowCells g r sc row) (r + 1) sc rest q = g q
    rw [ih _ (r + 1) sc cols q (fun x hx => hlen x (by simp [hx])) h]
    refine writeRowCells_untouched row g r sc q (Or.inr ?_)
    rcases h with h | h
    · exact Or.inl h
    · refine Or.inr ?_
      have := hlen row (by simp)
      omega

theorem writeRows_read :
    ∀ (rows : List (List (List Char))) (g : Grid) (r sc : Int) (i : Nat),
    i < rows.length → ∀ j : Nat, j < (rows.getD i []).length →
    writeRows g r sc rows (r + (i : Int), sc + (j : Int)) =
      some ((rows.getD i []).getD j []) := by
  intro rows
  induction rows with
  | nil => intro g r sc i hi; cases hi
  | cons row rest ih =>
    intro g r sc i hi j hj
    show writeRows (writeRowCells g r sc row) (r + 1) sc rest _ = _
    cases i with
    | zero =>
      rw [writeRows_untouched_row rest _ (r + 1) sc _ (Or.inl (by simp))]
      simpa using writeRowCells_read row g r sc j (by simpa using hj)
    | succ i =>
      have hco : r + ((i + 1 : Nat) : Int) = (r + 1) + (i : Int) := by push_cast; omega
      rw [hco]
      rw [ih _ (r + 1) sc i (by simpa using hi) j (by simpa using hj)]
      rfl

theorem map_getD_range {α : Type} (l : List α) (d : α) :
    (List.range l.length).map (fun i => l.getD i d) = l := by
  induction l with
  | nil => rfl
  | cons a rest ih =>
    simp only [List.length_cons, List.range_succ_eq_map, List.map_cons, List.map_map]
    refine congrArg _ ?_
    rw [show ((fun i => (a :: rest).getD i d) ∘ Nat.succ) = fun i => rest.getD i d from rfl]
    exact ih

/-- Claim C9: for the first registered table region containing the
current cell, `sort_table` reads the data rows (excluding the region's
first, header row) as text tuples, sorts them by the pivot column
`cc - start_col` using string-based lexical comparison (the stable sort
`data.sort(key=lambda x: x[col_to_sort])`), writes them back in that
order, and leaves the header row — and every cell outside the data
block — unchanged. -/
theorem sort_table_spec (g : Grid) (tables : List PyTable) (cr cc : Int) (t : PyTable)
    (hft : findTable tables cr cc = some t) :
    (∀ p : Int × Int, (p.1 < t.start_row + 1 ∨ t.start_row + (t.rows : Int) ≤ p.1 ∨
        p.2 < t.start_col ∨ t.start_col + (t.cols : Int) ≤ p.2) →
      sort_table g tables cr cc p = g p) ∧
    readRows (sort_table g tables cr cc) t =
      List.insertionSort (rowLe (cc - t.start_col).toNat) (readRows g t) ∧
    (readRows (sort_table g tables cr cc) t).Perm (readRows g t) ∧
    List.Sorted (rowLe (cc - t.start_col).toNat) (readRows (sort_table g tables cr cc) t) := by
  have hst : sort_table g tables cr cc =
      writeRows g (t.start_row + 1) t.start_col
        (List.insertionSort (rowLe (cc - t.start_col).toNat) (readRows g t)) := by
    unfold sort_table
    rw [hft]
  set pivot := (cc - t.start_col).toNat with hpiv
  set data := readRows g t with hdata
  set sorted := List.insertionSort (rowLe pivot) data with hsorted
  have hdlen : data.length = t.rows - 1 := by
    rw [hdata]
    unfold readRows
    rw [List.length_map, List.length_range]
  have hslen : sorted.length = t.rows - 1 := by
    rw [hsorted, List.length_insertionSort, hdlen]
  have hrowlen : ∀ row ∈ sorted, row.length = t.cols := by
    intro row hrow
    have hmem : row ∈ data := (List.mem_insertionSort (rowLe pivot)).1 hrow
    rw [hdata] at hmem
    unfold readRows at hmem
    obtain ⟨r0, _, hrw⟩ := List.mem_map.1 hmem
    rw [← hrw, List.length_map, List.length_range]
  have hread : readRows (writeRows g (t.start_row + 1) t.start_col sorted) t = sorted := by
    have step1 : ∀ r ∈ List.range (t.rows - 1),
        (List.range t.cols).map (fun (c : Nat) =>
          textOrEmpty (writeRows g (t.start_row + 1) t.start_col sorted)
            (t.start_row + (r : Int) + 1, t.start_col + (c : Int))) = sorted.getD r [] := by
      intro r hr
      rw [List.mem_range] at hr
      have hrowl : (sorted.getD r []).length = t.cols := by
        refine hrowlen _ ?_
        rw [List.getD_eq_getElem sorted [] (by omega)]
        exact List.getElem_mem _
      have step2 : ∀ c ∈ List.range t.cols,
          textOrEmpty (writeRows g (t.start_row + 1) t.start_col sorted)
            (t.start_row + (r : Int) + 1, t.start_col + (c : Int)) =
          (sorted.getD r []).getD c [] := by
        intro c hc
        rw [List.mem_range] at hc
        have hco : t.start_row + (r : Int) + 1 = (t.start_row + 1) + (r : Int) := by omega
        unfold textOrEmpty
        rw [hco, writeRows_read sorted g (t.start_row + 1) t.start_col r (by omega) c
          (by omega)]
        rfl
      rw [List.map_congr_left step2]
      calc (List.range t.cols).map (fun c => (sorted.getD r []).getD c [])
          = (List.range (sorted.getD r []).length).map
              (fun c => (sorted.getD r []).getD c []) := by rw [hrowl]
        _ = sorted.getD r [] := map_getD_range _ _
    show (List.range (t.rows - 1)).map _ = sorted
    rw [List.map_congr_left step1]
    calc (List.range (t.rows - 1)).map (fun r => sorted.getD r [])
        = (List.range sorted.length).map (fun r => sorted.getD r []) := by rw [hslen]
      _ = sorted := map_getD_range _ _
  refine ⟨?_, ?_, ?_, ?_⟩
  · intro p hp
    rw [hst]
    rcases Nat.eq_zero_or_pos t.rows with hz | hpos
    · have hsnil : sorted = [] := by
        refine List.eq_nil_of_length_eq_zero ?_
        rw [hslen, hz]
      rw [hsnil]
      rfl
    · rcases hp with h | h | h | h
      · exact writeRows_untouched_row sorted g _ _ p (Or.inl h)
      · refine writeRows_untouched_row sorted g _ _ p (Or.inr ?_)
        rw [hslen]
        omega
      · exact writeRows_untouched_col sorted g _ _ t.cols p
          (fun row hr => (hrowlen row hr).le) (Or.inl h)
      · exact writeRows_untouched_col sorted g _ _ t.cols p
          (fun row hr => (hrowlen row hr).le) (Or.inr (by omega))
  · rw [hst, hread]
  · rw [hst, hread, hsorted]
    exact List.perm_insertionSort _ _
  · rw [hst, hread, hsorted]
    haveI : IsTrans (List (List Char)) (rowLe pivot) :=
      ⟨fun a b c hab hbc => pyStrLe_trans _ _ _ hab hbc⟩
    haveI : IsTotal (List (List Char)) (rowLe pivot) :=
      ⟨fun a b => pyStrLe_total _ _⟩
    exact List.sorted_insertionSort _ _

/-- Witness for claim C9: a one-column table with header `"h"` and data
rows `"10"`, `"2"` at rows 1 and 2; after sorting on the pivot column the
header cell is unchanged and the data rows are in lexical order (the
string order leaves `"10"` before `"2"`). -/
theorem sort_table_spec_witness :
    sort_table
        (setCell (setCell (setCell emptyGrid (0, 0) ['h']) (1, 0) ['1', '0']) (2, 0) ['2'])
        [⟨0, 0, 3, 1⟩] 1 0 (0, 0) =
      (setCell (setCell (setCell emptyGrid (0, 0) ['h']) (1, 0) ['1', '0']) (2, 0) ['2'])
        (0, 0) :=
  (sort_table_spec
      (setCell (setCell (setCell emptyGrid (0, 0) ['h']) (1, 0) ['1', '0']) (2, 0) ['2'])
      [⟨0, 0, 3, 1⟩] 1 0 ⟨0, 0, 3, 1⟩ (by decide)).1 (0, 0) (Or.inl (by decide))

theorem findallAux_fuel : ∀ {f1 : Nat} {l : List Char} {f2 : Nat},
    l.length < f1 → l.length < f2 → findallAux f1 l = findallAux f2 l := by
  intro f1
  induction f1 with
  | zero => intro l f2 h1 _; omega
  | succ f1 ih =>
    intro l f2 h1 h2
    match f2, h2 with
    | f2 + 1, h2 =>
      cases l with
      | nil => rfl
      | cons c rest =>
        simp only [findallAux]
        have hdw : (rest.dropWhile isDigitChar).length ≤ rest.length :=
          (List.dropWhile_sublist isDigitChar).length_le
        simp only [List.length_cons] at h1 h2
        split
        · rw [@ih (rest.dropWhile isDigitChar) f2 (by omega) (by omega)]
        · rw [@ih rest f2 (by omega) (by omega)]

theorem findall_cons (c : Char) (rest : List Char) :
    findall_refs (c :: rest) =
      if isUpperAZ c ∧ ¬ rest.takeWhile isDigitChar = [] then
        (c :: rest.takeWhile isDigitChar) :: findall_refs (rest.dropWhile isDigitChar)
      else findall_refs rest := by
  show findallAux ((c :: rest).length + 1) (c :: rest) = _
  simp only [findallAux, List.length_cons]
  have hdw : (rest.dropWhile isDigitChar).length ≤ rest.length :=
    (List.dropWhile_sublist isDigitChar).length_le
  split
  · rw [findallAux_fuel (by omega) (Nat.lt_succ_self _)]
    rfl
  · rw [findallAux_fuel (by omega) (Nat.lt_succ_self _)]
    rfl

theorem pyReplaceAux_fuel (old new : List Char) (hold : ¬ old = []) :
    ∀ {f1 : Nat} {s : List Char} {f2 : Nat},
    s.length < f1 → s.length < f2 → pyReplaceAux old new f1 s = pyReplaceAux old new f2 s := by
  intro f1
  induction f1 with
  | zero => intro s f2 h1 _; omega
  | succ f1 ih =>
    intro s f2 h1 h2
    match f2, h2 with
    | f2 + 1, h2 =>
      cases s with
      | nil => rfl
      | cons c rest =>
        simp only [pyReplaceAux]
        simp only [List.length_cons] at h1 h2
        split
        · rename_i hpre
          have hlen : old.length ≥ 1 := by
            cases old with
            | nil => exact absurd rfl hold
            | cons _ _ => simp
          have hdl : ((c :: rest).drop old.length).length ≤ rest.length := by
            rw [List.length_drop, List.length_cons]
            omega
          rw [@ih ((c :: rest).drop old.length) f2 (by omega) (by omega)]
        · rw [@ih rest f2 (by omega) (by omega)]

theorem pyReplace_nil (old new : List Char) : pyReplace old new [] = [] := rfl

theorem pyReplace_cons (old new : List Char) (hold : ¬ old = []) (c : Char)
    (rest : List Char) :
    pyReplace old new (c :: rest) =
      if old.isPrefixOf (c :: rest) = true then
        new ++ pyReplace old new ((c :: rest).drop old.length)
      else c :: pyReplace old new rest := by
  show pyReplaceAux old new ((c :: rest).length + 1) (c :: rest) = _
  simp only [pyReplaceAux, List.length_cons]
  have hlen : old.length ≥ 1 := by
    cases old with
    | nil => exact absurd rfl hold
    | cons _ _ => simp
  have hdl : ((c :: rest).drop old.length).length ≤ rest.length := by
    rw [List.length_drop, List.length_cons]
    omega
  by_cases hpre : old.isPrefixOf (c :: rest) = true
  · rw [if_pos ⟨hold, hpre⟩, if_pos hpre]
    rw [pyReplaceAux_fuel old new hold (by omega) (Nat.lt_succ_self _)]
    rfl
  · rw [if_neg (fun hcon => hpre hcon.2), if_neg hpre]
    rw [pyReplaceAux_fuel old new hold (by omega) (Nat.lt_succ_self _)]
    rfl

/-- `l` contains no uppercase ASCII letter. -/
def noUpper (l : List Char) : Prop := ∀ c ∈ l, isUpperAZ c = false

/-- `r` has the shape of a cell-reference token: one uppercase letter
followed by one or more digits. -/
def wfRef (r : List Char) : Prop :=
  ∃ L ds, r = L :: ds ∧ isUpperAZ L = true ∧ ¬ ds = [] ∧ ∀ c ∈ ds, isDigitChar c = true

theorem not_upper_of_digit {c : Char} (h : isDigitChar c = true) : isUpperAZ c = false := by
  simp only [isDigitChar, decide_eq_true_eq] at h
  simp only [isUpperAZ, decide_eq_false_iff_not]
  omega

theorem not_digit_of_upper {c : Char} (h : isUpperAZ c = true) : isDigitChar c = false := by
  simp only [isUpperAZ, decide_eq_true_eq] at h
  simp only [isDigitChar, decide_eq_false_iff_not]
  omega

theorem takeWhile_all_append {p : Char → Bool} :
    ∀ {ds : List Char}, (∀ c ∈ ds, p c = true) →
    ∀ {u : List Char}, (∀ c, u.head? = some c → p c = false) →
    (ds ++ u).takeWhile p = ds ∧ (ds ++ u).dropWhile p = u := by
  intro ds
  induction ds with
  | nil =>
    intro _ u hu
    cases u with
    | nil => exact ⟨rfl, rfl⟩
    | cons c cs =>
      have := hu c rfl
      constructor
      · simp [List.takeWhile_cons, this]
      · simp [List.dropWhile_cons, this]
  | cons d ds ih =>
    intro hall u hu
    have hd : p d = true := hall d (by simp)
    obtain ⟨ht, hdr⟩ := ih (fun c hc => hall c (by simp [hc])) hu
    constructor
    · rw [List.cons_append, List.takeWhile_cons, hd]
      simp [ht]
    · rw [List.cons_append, List.dropWhile_cons]
      simp [hd, hdr]

theorem findall_skip_no_upper :
    ∀ {s : List Char}, noUpper s → ∀ u : List Char, findall_refs (s ++ u) = findall_refs u := by
  intro s
  induction s with
  | nil => intro _ u; rfl
  | cons c cs ih =>
    intro hs u
    rw [List.cons_append, findall_cons]
    rw [if_neg (fun hcon => by
      have := hs c (by simp)
      rw [this] at hcon
      exact Bool.noConfusion hcon.1)]
    exact ih (fun d hd => hs d (by simp [hd])) u

/-- Interleaving of reference tokens and literal segments:
`(r₁, s₁) :: (r₂, s₂) :: … ↦ r₁ ++ s₁ ++ r₂ ++ s₂ ++ …`. -/
def renderTail : List (List Char × List Char) → List Char
  | [] => []
  | (r, s) :: rest => r ++ (s ++ renderTail rest)

/-- A general arithmetic formula decomposed into a leading literal
segment and alternating reference/segment parts. -/
def renderParts (s0 : List Char) (rest : List (List Char × List Char)) : List Char :=
  s0 ++ renderTail rest

theorem renderTail_head_not_digit (rest : List (List Char × List Char))
    (hrefs : ∀ pr ∈ rest, wfRef pr.1) :
    ∀ c, (renderTail rest).head? = some c → isDigitChar c = false := by
  cases rest with
  | nil => intro c hc; cases hc
  | cons pr rest =>
    obtain ⟨L, ds, hr, hL, _, _⟩ := hrefs pr (by simp)
    intro c hc
    cases pr with
    | mk r s =>
      simp only at hr
      rw [show renderTail ((r, s) :: rest) = r ++ (s ++ renderTail rest) from rfl, hr] at hc
      simp only [List.cons_append, List.head?_cons, Option.some.injEq] at hc
      rw [← hc]
      exact not_digit_of_upper hL

theorem head_not_digit_append {s u : List Char}
    (hs : ∀ c, s.head? = some c → isDigitChar c = false)
    (hu : ∀ c, u.head? = some c → isDigitChar c = false) :
    ∀ c, (s ++ u).head? = some c → isDigitChar c = false := by
  cases s with
  | nil => simpa using hu
  | cons a s2 =>
    intro c hc
    simp only [List.cons_append, List.head?_cons, Option.some.injEq] at hc
    exact hc ▸ hs a rfl

/-- Scanning the rendered formula finds exactly the reference tokens, in
order. -/
theorem findall_renderTail :
    ∀ (rest : List (List Char × List Char)),
    (∀ pr ∈ rest, noUpper pr.2) →
    (∀ pr ∈ rest, wfRef pr.1) →
    (∀ pr ∈ rest, ∀ c, pr.2.head? = some c → isDigitChar c = false) →
    findall_refs (renderTail rest) = rest.map Prod.fst := by
  intro rest
  induction rest with
  | nil => intro _ _ _; rfl
  | cons pr rest ih =>
    intro hsegs hrefs hheads
    obtain ⟨L, ds, hr, hL, hdne, hds⟩ := hrefs pr (by simp)
    cases pr with
    | mk r s =>
      simp only at hr
      subst hr
      show findall_refs ((L :: ds) ++ (s ++ renderTail rest)) = _
      have hu : ∀ c, (s ++ renderTail rest).head? = some c → isDigitChar c = false :=
        head_not_digit_append (hheads (L :: ds, s) (by simp))
          (renderTail_head_not_digit rest (fun q hq => hrefs q (by simp [hq])))
      obtain ⟨htw, hdw⟩ := takeWhile_all_append hds hu
      rw [List.cons_append, findall_cons]
      rw [if_pos ⟨hL, by rw [htw]; exact hdne⟩, htw, hdw]
      rw [findall_skip_no_upper (hsegs (L :: ds, s) (by simp)) (renderTail rest)]
      rw [ih (fun q hq => hsegs q (by simp [hq])) (fun q hq => hrefs q (by simp [hq]))
        (fun q hq => hheads q (by simp [hq]))]
      rfl

theorem isUpper_digitChar_false (d : Nat) : isUpperAZ (digitChar d) = false := by
  simp only [isUpperAZ, digitChar_toNat, decide_eq_false_iff_not]
  have : d % 10 < 10 := Nat.mod_lt _ (by omega)
  omega

theorem natStr_no_upper (n : Nat) : noUpper (natStr n) := by
  intro c hc
  exact not_upper_of_digit (natStr_digits n c hc)

theorem qFracDigits_no_upper : ∀ (fuel : Nat) (q : ℚ), noUpper (qFracDigits fuel q) := by
  intro fuel
  induction fuel with
  | zero => intro q c hc; cases hc
  | succ fuel ih =>
    intro q c hc
    simp only [qFracDigits] at hc
    split at hc
    · cases hc
    · rcases List.mem_cons.1 hc with hc | hc
      · rw [hc]
        exact isUpper_digitChar_false _
      · exact ih _ c hc

theorem qMagStr_no_upper (q : ℚ) : noUpper (qMagStr q) := by
  intro c hc
  rw [qMagStr] at hc
  split at hc
  · rcases List.mem_append.1 hc with hc | hc
    · exact natStr_no_upper _ c hc
    · rcases List.mem_cons.1 hc with hc | hc
      · rw [hc]; rfl
      · rcases List.mem_cons.1 hc with hc | hc
        · rw [hc]; rfl
        · cases hc
  · rcases List.mem_append.1 hc with hc | hc
    · exact natStr_no_upper _ c hc
    · rcases List.mem_cons.1 hc with hc | hc
      · rw [hc]; rfl
      · exact qFracDigits_no_upper _ _ c hc

theorem pyFloatStr_no_upper (v : PyFloat) : noUpper (pyFloatStr v) := by
  cases v with
  | inf => intro c hc; fin_cases hc <;> rfl
  | ninf => intro c hc; fin_cases hc <;> rfl
  | nan => intro c hc; fin_cases hc <;> rfl
  | finite q =>
    intro c hc
    have hc2 : c ∈ (if q < 0 then '-' :: qMagStr (-q) else qMagStr q) := hc
    split at hc2
    · rcases List.mem_cons.1 hc2 with h | h
      · rw [h]; rfl
      · exact qMagStr_no_upper _ c h
    · exact qMagStr_no_upper _ c hc2

theorem not_isPrefixOf_of_head {old : List Char} {c : Char} (rest : List Char)
    (hold : ∃ L ds, old = L :: ds ∧ isUpperAZ L = true) (hc : isUpperAZ c = false) :
    ¬ old.isPrefixOf (c :: rest) = true := by
  obtain ⟨L, ds, hr, hL⟩ := hold
  subst hr
  intro hcon
  rw [List.isPrefixOf_iff_prefix] at hcon
  obtain ⟨t, ht⟩ := hcon
  rw [List.cons_append] at ht
  injection ht with h1 h2
  rw [h1, hc] at hL
  exact Bool.noConfusion hL

theorem pyReplace_skip_no_upper (old new : List Char)
    (hold : ∃ L ds, old = L :: ds ∧ isUpperAZ L = true) :
    ∀ (s : List Char), noUpper s → ∀ u : List Char,
    pyReplace old new (s ++ u) = s ++ pyReplace old new u := by
  have holdne : ¬ old = [] := by
    obtain ⟨L, ds, hr, _⟩ := hold
    rw [hr]
    simp
  intro s
  induction s with
  | nil => intro _ u; rfl
  | cons c cs ih =>
    intro hs u
    rw [List.cons_append, pyReplace_cons old new holdne]
    rw [if_neg (not_isPrefixOf_of_head _ hold (hs c (by simp)))]
    rw [ih (fun d hd => hs d (by simp [hd])) u]
    rfl

theorem not_isPrefixOf_at_slot {r0 r : List Char} (x : List Char) (_hne : ¬ r0 = r)
    (hnp1 : r0.isPrefixOf r = false) (hnp2 : r.isPrefixOf r0 = false) :
    ¬ r0.isPrefixOf (r ++ x) = true := by
  intro hcon
  rw [List.isPrefixOf_iff_prefix] at hcon
  have h1 : ¬ r0 <+: r := by
    intro hp
    rw [← List.isPrefixOf_iff_prefix] at hp
    rw [hnp1] at hp
    exact Bool.noConfusion hp
  have h2 : ¬ r <+: r0 := by
    intro hp
    rw [← List.isPrefixOf_iff_prefix] at hp
    rw [hnp2] at hp
    exact Bool.noConfusion hp
  rcases Nat.le_total r0.length r.length with hle | hle
  · exact h1 (List.prefix_of_prefix_length_le hcon (List.prefix_append r x) hle)
  · exact h2 (List.prefix_of_prefix_length_le (List.prefix_append r x) hcon hle)

theorem pyReplace_step_self (old new : List Char) (holdne : ¬ old = []) (y : List Char) :
    pyReplace old new (old ++ y) = new ++ pyReplace old new y := by
  cases old with
  | nil => exact absurd rfl holdne
  | cons c os =>
    rw [List.cons_append, pyReplace_cons _ new holdne]
    rw [if_pos (by rw [← List.cons_append]; exact isPrefixOf_append _ y)]
    rw [← List.cons_append, List.drop_left]

theorem pyReplace_skip_other_ref (old new r : List Char)
    (hold : ∃ L ds, old = L :: ds ∧ isUpperAZ L = true)
    (hwr : wfRef r) (hne : ¬ old = r)
    (hnp1 : old.isPrefixOf r = false) (hnp2 : r.isPrefixOf old = false) (x : List Char) :
    pyReplace old new (r ++ x) = r ++ pyReplace old new x := by
  have holdne : ¬ old = [] := by
    obtain ⟨L, ds, hr2, _⟩ := hold
    rw [hr2]
    simp
  obtain ⟨L, ds, hr2, hL, hdne, hds⟩ := hwr
  subst hr2
  rw [List.cons_append, pyReplace_cons _ new holdne]
  rw [if_neg (by
    rw [← List.cons_append]
    exact not_isPrefixOf_at_slot x hne hnp1 hnp2)]
  rw [pyReplace_skip_no_upper old new hold ds (fun c hc => not_upper_of_digit (hds c hc)) x]
  rfl

/-- The float value of the cell a reference names (total; the defaults
are unreachable when the cell is present with coercible text). -/
def refValue (g : Grid) (r : List Char) : PyFloat :=
  match parseCellId r with
  | some c =>
    match g c with
    | some t => (pyFloatVal t).getD (PyFloat.finite 0)
    | none => PyFloat.finite 0
  | none => PyFloat.finite 0

/-- The rendered formula after the references in `P` have been
substituted by their cells' decimal values. -/
def substTail (g : Grid) (P : List (List Char)) :
    List (List Char × List Char) → List Char
  | [] => []
  | (r, s) :: rest =>
    (if r ∈ P then pyFloatStr (refValue g r) else r) ++ (s ++ substTail g P rest)

theorem substTail_congr (g : Grid) {P Q : List (List Char)}
    (h : ∀ r, r ∈ P ↔ r ∈ Q) :
    ∀ rest, substTail g P rest = substTail g Q rest := by
  intro rest
  induction rest with
  | nil => rfl
  | cons pr rest ih =>
    cases pr with
    | mk r s =>
      show (if r ∈ P then _ else _) ++ _ = (if r ∈ Q then _ else _) ++ _
      rw [ih]
      by_cases hp : r ∈ P
      · rw [if_pos hp, if_pos ((h r).1 hp)]
      · rw [if_neg hp, if_neg (fun hq => hp ((h r).2 hq))]

theorem substTail_nil_processed (g : Grid) :
    ∀ rest, substTail g [] rest = renderTail rest := by
  intro rest
  induction rest with
  | nil => rfl
  | cons pr rest ih =>
    cases pr with
    | mk r s =>
      show (if r ∈ ([] : List (List Char)) then _ else _) ++ _ = _
      rw [if_neg (List.not_mem_nil r), ih]
      rfl

theorem substTail_all (g : Grid) (Q : List (List Char)) :
    ∀ rest : List (List Char × List Char), (∀ pr ∈ rest, pr.1 ∈ Q) →
    substTail g Q rest =
      renderTail (rest.map (fun pr => (pyFloatStr (refValue g pr.1), pr.2))) := by
  intro rest
  induction rest with
  | nil => intro _; rfl
  | cons pr rest ih =>
    intro hall
    cases pr with
    | mk r s =>
      show (if r ∈ Q then _ else _) ++ _ = _
      rw [if_pos (hall (r, s) (by simp)), ih (fun q hq => hall q (by simp [hq]))]
      rfl

theorem pyReplace_substTail (g : Grid) (r0 : List Char) (h0 : wfRef r0) :
    ∀ (rest : List (List Char × List Char)) (P : List (List Char)),
    (∀ pr ∈ rest, noUpper pr.2) →
    (∀ pr ∈ rest, wfRef pr.1) →
    (∀ pr ∈ rest, ¬ pr.1 = r0 →
      pr.1.isPrefixOf r0 = false ∧ r0.isPrefixOf pr.1 = false) →
    pyReplace r0 (pyFloatStr (refValue g r0)) (substTail g P rest) =
      substTail g (r0 :: P) rest := by
  have hshape : ∃ L ds, r0 = L :: ds ∧ isUpperAZ L = true := by
    obtain ⟨L, ds, hr2, hL, _, _⟩ := h0
    exact ⟨L, ds, hr2, hL⟩
  have holdne : ¬ r0 = [] := by
    obtain ⟨L, ds, hr2, _⟩ := hshape
    rw [hr2]
    simp
  intro rest
  induction rest with
  | nil => intro P _ _ _; rfl
  | cons pr rest ih =>
    intro P hsegs hrefs hnp
    have hihyp := ih P (fun q hq => hsegs q (by simp [hq]))
      (fun q hq => hrefs q (by simp [hq])) (fun q hq hq2 => hnp q (by simp [hq]) hq2)
    cases pr with
    | mk r s =>
      show pyReplace r0 (pyFloatStr (refValue g r0))
          ((if r ∈ P then pyFloatStr (refValue g r) else r) ++ (s ++ substTail g P rest)) =
        (if r ∈ r0 :: P then pyFloatStr (refValue g r) else r) ++
          (s ++ substTail g (r0 :: P) rest)
      by_cases hrP : r ∈ P
      · rw [if_pos hrP, if_pos (by simp [hrP])]
        rw [pyReplace_skip_no_upper r0 _ hshape _ (pyFloatStr_no_upper _) _]
        rw [pyReplace_skip_no_upper r0 _ hshape s (hsegs (r, s) (by simp)) _]
        rw [hihyp]
      · by_cases hrr : r = r0
        · rw [if_neg hrP, if_pos (by simp [hrr]), hrr]
          rw [pyReplace_step_self r0 _ holdne]
          rw [pyReplace_skip_no_upper r0 _ hshape s (hsegs (r, s) (by simp)) _]
          rw [hihyp]
        · have hnps := hnp (r, s) (by simp) hrr
          rw [if_neg hrP, if_neg (by simp [hrr, hrP])]
          rw [pyReplace_skip_other_ref r0 _ r hshape (hrefs (r, s) (by simp))
            (fun he => hrr he.symm) hnps.2 hnps.1 _]
          rw [pyReplace_skip_no_upper r0 _ hshape s (hsegs (r, s) (by simp)) _]
          rw [hihyp]

instance noUpper_decidable (l : List Char) : Decidable (noUpper l) :=
  inferInstanceAs (Decidable (∀ c ∈ l, isUpperAZ c = false))

theorem rcrLoop_subst (g : Grid) (s0 : List Char) (rest : List (List Char × List Char))
    (h0 : noUpper s0)
    (hsegs : ∀ pr ∈ rest, noUpper pr.2)
    (hrefs : ∀ pr ∈ rest, wfRef pr.1)
    (hnp : ∀ pr ∈ rest, ∀ pr2 ∈ rest, ¬ pr.1 = pr2.1 → pr.1.isPrefixOf pr2.1 = false)
    (hres : ∀ pr ∈ rest, ∃ c t v, parseCellId pr.1 = some c ∧ g c = some t ∧
      pyFloatVal t = some v) :
    ∀ (tp P : List (List Char)),
    (∀ r ∈ tp, ∃ pr, pr ∈ rest ∧ pr.1 = r) →
    rcrLoop tp (s0 ++ substTail g P rest) g =
      (s0 ++ substTail g (tp.reverse ++ P) rest, g) := by
  intro tp
  induction tp with
  | nil => intro P _; rfl
  | cons r0 tp ih =>
    intro P htp
    obtain ⟨pr, hpr, hfst⟩ := htp r0 (by simp)
    obtain ⟨c, t, v, hparse, hcell, hval⟩ := hres pr hpr
    rw [hfst] at hparse
    have hwf : wfRef r0 := hfst ▸ hrefs pr hpr
    have hshape : ∃ L ds, r0 = L :: ds ∧ isUpperAZ L = true := by
      obtain ⟨L, ds, hr2, hL, _, _⟩ := hwf
      exact ⟨L, ds, hr2, hL⟩
    show rcrLoop (r0 :: tp) (s0 ++ substTail g P rest) g = _
    unfold rcrLoop
    rw [get_cell_from_id_eq g r0 c hparse, hcell]
    dsimp only [Option.getD_some]
    rw [hval]
    dsimp only
    rw [setCell_self g c t hcell]
    have hv2 : refValue g r0 = v := by
      unfold refValue
      rw [hparse]
      dsimp only
      rw [hcell]
      dsimp only
      rw [hval]
      rfl
    rw [show pyFloatStr v = pyFloatStr (refValue g r0) from by rw [hv2]]
    rw [pyReplace_skip_no_upper r0 _ hshape s0 h0 _]
    rw [pyReplace_substTail g r0 hwf rest P hsegs hrefs (fun pr2 hpr2 hne => by
      refine ⟨?_, ?_⟩
      · have h1 := hnp pr2 hpr2 pr hpr (by rw [hfst]; exact hne)
        rw [hfst] at h1
        exact h1
      · have h2 := hnp pr hpr pr2 hpr2 (by rw [hfst]; exact fun he => hne he.symm)
        rw [hfst] at h2
        exact h2)]
    rw [ih (r0 :: P) (fun r hr => htp r (by simp [hr]))]
    refine congrArg (fun x => (s0 ++ x, g)) (substTail_congr g ?_ rest)
    intro r
    simp only [List.mem_append, List.mem_cons, List.mem_reverse, List.reverse_cons,
      List.mem_singleton, List.not_mem_nil, or_false]
    tauto

/-- Counterexample to claim C4: with `A1 = "5"` and `A12 = "7"`, the
substitution step on the formula text `"A1+A12"` produces `"5.0+5.02"`
instead of `"5.0+7.0"`: the global `str.replace` for the first match
`A1` also rewrites the prefix of the later token `A12`, corrupting it. -/
theorem overlapping_ref_corrupts :
    (replace_cell_references (setCell (setCell emptyGrid (0, 0) ['5']) (11, 0) ['7'])
        (s2l ("A1+A12"))).1 = s2l ("5.0+5.02") ∧
      ¬ (replace_cell_references (setCell (setCell emptyGrid (0, 0) ['5']) (11, 0) ['7'])
          (s2l ("A1+A12"))).1 = s2l ("5.0+7.0") := by
  constructor
  · decide
  · decide

/-- Claim C4 (amended): for a general arithmetic formula decomposed into
literal segments and reference tokens — where the literal segments contain
no uppercase letters, no segment following a reference starts with a
digit, and no reference token is a proper prefix of another reference
token of the formula — if every referenced cell's text coerces to a
float, then the substitution step replaces each occurrence of each
reference token with exactly the decimal value of that cell's float
(repeated references to the same cell receive the same substituted
value, since the value is a function of the token), leaves all
non-reference text unchanged, and leaves the grid unchanged.  Without the
non-prefix condition the counterexample above shows the claim false. -/
theorem replace_refs_exact (g : Grid) (s0 : List Char)
    (rest : List (List Char × List Char))
    (h0 : noUpper s0)
    (hsegs : ∀ pr ∈ rest, noUpper pr.2)
    (hrefs : ∀ pr ∈ rest, wfRef pr.1)
    (hheads : ∀ pr ∈ rest, ∀ c, pr.2.head? = some c → isDigitChar c = false)
    (hnp : ∀ pr ∈ rest, ∀ pr2 ∈ rest, ¬ pr.1 = pr2.1 → pr.1.isPrefixOf pr2.1 = false)
    (hres : ∀ pr ∈ rest, ∃ c t v, parseCellId pr.1 = some c ∧ g c = some t ∧
      pyFloatVal t = some v) :
    replace_cell_references g (renderParts s0 rest) =
      (s0 ++ renderTail (rest.map (fun pr => (pyFloatStr (refValue g pr.1), pr.2))), g) := by
  unfold replace_cell_references renderParts
  rw [findall_skip_no_upper h0, findall_renderTail rest hsegs hrefs hheads]
  have heq : s0 ++ renderTail rest = s0 ++ substTail g [] rest := by
    rw [substTail_nil_processed]
  rw [heq]
  rw [rcrLoop_subst g s0 rest h0 hsegs hrefs hnp hres (rest.map Prod.fst) []
    (fun r hr => by
      obtain ⟨pr, hpr, he⟩ := List.mem_map.1 hr
      exact ⟨pr, hpr, he⟩)]
  refine congrArg (fun x => (s0 ++ x, g)) ?_
  rw [@substTail_congr g ((rest.map Prod.fst).reverse ++ []) (rest.map Prod.fst)
    (by intro r; simp) rest]
  exact substTail_all g _ rest (fun pr hpr => List.mem_map_of_mem _ hpr)

/-- Witness for claim C4's amended theorem: formula parts `A1 "+" B2`
with `A1 = "5"`, `B2 = "7"`; the substitution yields `"5.0+7.0"`. -/
theorem replace_refs_exact_witness :
    (replace_cell_references (setCell (setCell emptyGrid (0, 0) ['5']) (1, 1) ['7'])
        (renderParts [] [(s2l ("A1"), ['+']), (s2l ("B2"), [])])).1 =
      [] ++ renderTail ([(s2l ("A1"), ['+']), (s2l ("B2"), [])].map
        (fun pr => (pyFloatStr (refValue
          (setCell (setCell emptyGrid (0, 0) ['5']) (1, 1) ['7']) pr.1), pr.2))) ∧
    ([] : List Char) ++ renderTail ([(s2l ("A1"), ['+']), (s2l ("B2"), [])].map
        (fun pr => (pyFloatStr (refValue
          (setCell (setCell emptyGrid (0, 0) ['5']) (1, 1) ['7']) pr.1), pr.2))) =
      s2l ("5.0+7.0") := by
  constructor
  · rw [replace_refs_exact (setCell (setCell emptyGrid (0, 0) ['5']) (1, 1) ['7']) []
      [(s2l ("A1"), ['+']), (s2l ("B2"), [])] (by decide) (by decide)
      (by
        intro pr hpr
        rcases List.mem_cons.1 hpr with h | h
        · rw [h]
          exact ⟨'A', ['1'], rfl, by decide, by decide, by decide⟩
        · rcases List.mem_cons.1 h with h | h
          · rw [h]
            exact ⟨'B', ['2'], rfl, by decide, by decide, by decide⟩
          · cases h)
      (by
        intro pr hpr c hc
        rcases List.mem_cons.1 hpr with h | h
        · rw [h] at hc
          have : c = '+' := by simpa using hc.symm
          rw [this]
          rfl
        · rcases List.mem_cons.1 h with h | h
          · rw [h] at hc
            cases hc
          · cases h)
      (by decide)
      (by
        intro pr hpr
        rcases List.mem_cons.1 hpr with h | h
        · rw [h]
          exact ⟨(0, 0), ['5'], PyFloat.finite 5, by decide, rfl, by decide⟩
        · rcases List.mem_cons.1 h with h | h
          · rw [h]
            exact ⟨(1, 1), ['7'], PyFloat.finite 7, by decide, rfl, by decide⟩
          · cases h)]
  · decide
